import Mathlib

/-
Verification of the DiffTracker diff engine.

This file shallowly embeds the diff engine of the DiffTracker extension
(`diffTracker.ts`: the patience-diff sequence aligner, the positional-diff
fallback, the run merger, the line classifier / inline view builder, the
similarity pairing heuristic, the line normalizer) together with the
change-block grouping of `diffCodeLens.ts`, and proves the specified
properties about them.

Modelling conventions:
- JavaScript arrays of strings are `List String`; 0-based indices are `Nat`.
- Optional record fields (`added?: boolean`, `originalLineNumber?: number`,
  ...) are modelled as `Bool` with default `false`, resp. `Option _` with
  default `none`; the source never stores an explicit `false` in the
  optional run flags.
- Similarity scores (JS `number`, used only for ratios of small integers,
  comparisons and `Math.max`) are modelled as `Rat`.
- String manipulation is modelled on `List Char` (`String.data`) so that
  every definition evaluates inside the kernel; JS `trim`/`\s` whitespace
  is modelled by `Char.isWhitespace`.
- The recursion of `patienceDiffRecursive` is bounded by the combined size
  of the two active ranges; the embedding `patienceDiffRec` takes that
  bound as structural fuel.  Fuel-sufficiency (the result is independent
  of the fuel once it is at least the combined range size) is proved in
  `patienceDiffRec_fuel_stable` below, which is the termination argument
  of the original recursion.
-/

namespace DiffTracker

/-- JavaScript `Array.prototype.slice(s, e)` for `0 ≤ s` (on lists of lines). -/
def slice (l : List String) (s e : Nat) : List String :=
  (l.drop s).take (e - s)

/-- One run of the aligner's output:
`{ value: string[]; added?: boolean; removed?: boolean }`.
An absent flag is modelled as `false` (the source only ever writes `true`). -/
structure Run where
  value : List String
  added : Bool := false
  removed : Bool := false
deriving DecidableEq, Repr

/-- The kind of a run, as the spec describes it (equal / inserted / deleted). -/
inductive RunKind
  | equal
  | inserted
  | deleted
deriving DecidableEq, Repr

/-- A run with the `added` flag is an inserted run, one with the `removed`
flag is a deleted run, and one with neither flag is an equal run. -/
def Run.kind (r : Run) : RunKind :=
  if r.added then RunKind.inserted else if r.removed then RunKind.deleted else RunKind.equal

/-- Concatenation, in order, of the line lists of all runs that are not
`inserted` (this must reconstruct the old sequence). -/
def oldReconstruction (runs : List Run) : List String :=
  ((runs.filter fun r => decide (r.kind ≠ RunKind.inserted)).map Run.value).flatten

/-- Concatenation, in order, of the line lists of all runs that are not
`deleted` (this must reconstruct the new sequence). -/
def newReconstruction (runs : List Run) : List String :=
  ((runs.filter fun r => decide (r.kind ≠ RunKind.deleted)).map Run.value).flatten

/-- `findUniqueLineIndices(lines, start, end)`: the lines occurring exactly once
in `lines[start..end)`, with their (unique) index, in increasing index order
(the source returns an insertion-ordered `Map`, whose iteration order is
exactly increasing index order for count-1 lines). -/
def findUniqueLineIndices (lines : List String) (start stop : Nat) : List (String × Nat) :=
  (List.range' start (stop - start)).filterMap fun i =>
    if (slice lines start stop).count (lines.getD i "") = 1 then
      some (lines.getD i "", i)
    else none

/-- The inner loop of `longestIncreasingSubsequence` for position `i`:
scan `j = 0, ..., i-1` and keep the first `j` giving the strictly largest
`dp[j] + 1`, starting from `dp[i] = 1`, `parent[i] = -1` (modelled as `none`). -/
def lisBest (nums : List Nat) (dps : List Nat) (i : Nat) : Nat × Option Nat :=
  (List.range i).foldl
    (fun acc j =>
      if nums.getD j 0 < nums.getD i 0 ∧ acc.1 < dps.getD j 0 + 1 then
        (dps.getD j 0 + 1, some j)
      else acc)
    (1, none)

/-- One step of the table construction of `longestIncreasingSubsequence`:
append `dp[i]` and `parent[i]`. -/
def lisStep (nums : List Nat) (st : List Nat × List (Option Nat)) (i : Nat) :
    List Nat × List (Option Nat) :=
  (st.1 ++ [(lisBest nums st.1 i).1], st.2 ++ [(lisBest nums st.1 i).2])

/-- The `dp` and `parent` tables of `longestIncreasingSubsequence` after the
first `n` outer-loop iterations. -/
def lisTablesUpTo (nums : List Nat) (n : Nat) : List Nat × List (Option Nat) :=
  (List.range n).foldl (lisStep nums) ([], [])

/-- The `dp` and `parent` tables of `longestIncreasingSubsequence`, built
left to right. -/
def lisTables (nums : List Nat) : List Nat × List (Option Nat) :=
  lisTablesUpTo nums nums.length

/-- The index with maximal `dp` value (first maximum, starting from
`maxLen = 0, maxIdx = 0`). -/
def lisMaxIdx (dps : List Nat) : Nat :=
  ((List.range dps.length).foldl
    (fun best i => if best.1 < dps.getD i 0 then (dps.getD i 0, i) else best)
    (0, 0)).2

/-- Reconstruction of the subsequence by following `parent` links from `idx`.
The parent of an index is always a strictly smaller index, so a chain starting
at `idx` has length at most `idx + 1`; the structural fuel (called with
`fuel = idx`) therefore never runs out, and the `j < i` test mirrors that
invariant of the source tables. -/
def lisChainFuel (parents : List (Option Nat)) : Nat → Nat → List Nat
  | 0, i => [i]
  | fuel + 1, i =>
    match parents.getD i none with
    | none => [i]
    | some j => if j < i then lisChainFuel parents fuel j ++ [i] else [i]

/-- `longestIncreasingSubsequence(nums)`: indices of a longest strictly
increasing subsequence of `nums`, found by the standard quadratic dynamic
program of the source. -/
def longestIncreasingSubsequence (nums : List Nat) : List Nat :=
  if nums.isEmpty then []
  else
    let tables := lisTables nums
    let maxIdx := lisMaxIdx tables.1
    lisChainFuel tables.2 maxIdx maxIdx

/-- Insertion of one pair into a list sorted by first component (used to model
the source's `sort((a, b) => a.oldIdx - b.oldIdx)`; the keys are distinct
indices, so every correct sort produces the same list). -/
def insertByOldIdx (x : Nat × Nat) : List (Nat × Nat) → List (Nat × Nat)
  | [] => [x]
  | y :: ys => if x.1 ≤ y.1 then x :: y :: ys else y :: insertByOldIdx x ys

/-- Sort a list of `(oldIdx, newIdx)` pairs by `oldIdx`. -/
def sortByOldIdx (l : List (Nat × Nat)) : List (Nat × Nat) :=
  l.foldr insertByOldIdx []

/-- The `commonUniques` collection of `findAnchors`: for every line unique in
the old range, look its text up among the lines unique in the new range. -/
def commonUniques (oldUniques newUniques : List (String × Nat)) : List (Nat × Nat) :=
  oldUniques.filterMap fun p =>
    match List.lookup p.1 newUniques with
    | some newIdx => some (p.2, newIdx)
    | none => none

/-- `findAnchors(oldLines, oldUniques, newLines, newUniques)`: lines unique in
both ranges, sorted by old index, restricted to a longest subsequence that is
increasing in the new index. -/
def findAnchors (oldUniques newUniques : List (String × Nat)) : List (Nat × Nat) :=
  if (commonUniques oldUniques newUniques).isEmpty then []
  else
    (longestIncreasingSubsequence
      ((sortByOldIdx (commonUniques oldUniques newUniques)).map Prod.snd)).map
      fun i => (sortByOldIdx (commonUniques oldUniques newUniques)).getD i (0, 0)

/-- The `leadingUnchanged` counter of `positionalDiff`: how many successive
positions from `(oldStart, newStart)` hold equal lines, bounded by the given
budget (`minLen`). -/
def leadingCount (oldLines newLines : List String) (oldStart newStart : Nat) : Nat → Nat
  | 0 => 0
  | budget + 1 =>
    if oldLines.getD oldStart "" = newLines.getD newStart "" then
      leadingCount oldLines newLines (oldStart + 1) (newStart + 1) budget + 1
    else 0

/-- The `trailingUnchanged` counter of `positionalDiff`: how many successive
positions counted backwards from `(oldEnd, newEnd)` hold equal lines, bounded
by the given budget (`minLen - leadingUnchanged`). -/
def trailingCount (oldLines newLines : List String) (oldEnd newEnd : Nat) : Nat → Nat
  | 0 => 0
  | budget + 1 =>
    if oldLines.getD (oldEnd - 1) "" = newLines.getD (newEnd - 1) "" then
      trailingCount oldLines newLines (oldEnd - 1) (newEnd - 1) budget + 1
    else 0

/-- `positionalDiff(oldLines, oldStart, oldEnd, newLines, newStart, newEnd)`:
position-based fallback used when no unique anchors exist.  The source's
element-by-element suffix/prefix comparison loops are expressed as equality
of the compared slices (identical for the in-bounds ranges the function is
called on). -/
def positionalDiff (oldLines : List String) (oldStart oldEnd : Nat)
    (newLines : List String) (newStart newEnd : Nat) : List Run :=
  let oldLen := oldEnd - oldStart
  let newLen := newEnd - newStart
  if oldLen = 0 ∧ 0 < newLen then
    [{ value := slice newLines newStart newEnd, added := true }]
  else if newLen = 0 ∧ 0 < oldLen then
    [{ value := slice oldLines oldStart oldEnd, removed := true }]
  -- deletion at the start: the new content is a suffix of the old content
  else if oldLen > newLen ∧
      slice oldLines (oldStart + (oldLen - newLen)) oldEnd = slice newLines newStart newEnd then
    [{ value := slice oldLines oldStart (oldStart + (oldLen - newLen)), removed := true },
     { value := slice oldLines (oldStart + (oldLen - newLen)) oldEnd }]
  -- deletion at the end: the new content is a prefix of the old content
  else if oldLen > newLen ∧
      slice oldLines oldStart (oldStart + newLen) = slice newLines newStart newEnd then
    [{ value := slice oldLines oldStart (oldStart + newLen) },
     { value := slice oldLines (oldStart + newLen) oldEnd, removed := true }]
  -- addition at the start: the old content is a suffix of the new content
  else if newLen > oldLen ∧
      slice newLines (newStart + (newLen - oldLen)) newEnd = slice oldLines oldStart oldEnd then
    [{ value := slice newLines newStart (newStart + (newLen - oldLen)), added := true },
     { value := slice newLines (newStart + (newLen - oldLen)) newEnd }]
  -- addition at the end: the old content is a prefix of the new content
  else if newLen > oldLen ∧
      slice newLines newStart (newStart + oldLen) = slice oldLines oldStart oldEnd then
    [{ value := slice newLines newStart (newStart + oldLen) },
     { value := slice newLines (newStart + oldLen) newEnd, added := true }]
  else
    let minLen := min oldLen newLen
    let leadingUnchanged := leadingCount oldLines newLines oldStart newStart minLen
    let trailingUnchanged :=
      trailingCount oldLines newLines oldEnd newEnd (minLen - leadingUnchanged)
    let oldMiddleStart := oldStart + leadingUnchanged
    let oldMiddleEnd := oldEnd - trailingUnchanged
    let newMiddleStart := newStart + leadingUnchanged
    let newMiddleEnd := newEnd - trailingUnchanged
    (if 0 < leadingUnchanged then
      [{ value := slice oldLines oldStart (oldStart + leadingUnchanged) : Run }] else [])
    ++ (if oldMiddleStart < oldMiddleEnd then
      [{ value := slice oldLines oldMiddleStart oldMiddleEnd, removed := true : Run }] else [])
    ++ (if newMiddleStart < newMiddleEnd then
      [{ value := slice newLines newMiddleStart newMiddleEnd, added := true : Run }] else [])
    ++ (if 0 < trailingUnchanged then
      [{ value := slice oldLines (oldEnd - trailingUnchanged) oldEnd : Run }] else [])

/-- One step of `mergeConsecutiveChanges`; `acc` is the reversed result list.
Empty-valued runs are skipped; a run whose flags equal the flags of the last
emitted run is appended to that run's line list. -/
def mergeStep (acc : List Run) (change : Run) : List Run :=
  if change.value = [] then acc
  else
    match acc with
    | [] => [change]
    | last :: rest =>
      if last.added = change.added ∧ last.removed = change.removed then
        { last with value := last.value ++ change.value } :: rest
      else change :: last :: rest

/-- `mergeConsecutiveChanges(changes)`: drop empty runs and concatenate
adjacent runs with identical flags. -/
def mergeConsecutiveChanges (changes : List Run) : List Run :=
  (changes.foldl mergeStep []).reverse

/-- The list of `(prevOldIdx, oldIdx, prevNewIdx, newIdx)` recursion ranges
lying before each anchor, for the anchor loop of `patienceDiffRecursive`
started at `(lo, ln)`. -/
def anchorSegments (lo ln : Nat) : List (Nat × Nat) → List (Nat × Nat × Nat × Nat)
  | [] => []
  | (oi, ni) :: rest => (lo, oi, ln, ni) :: anchorSegments (oi + 1) (ni + 1) rest

/-- The `(prevOldIdx, prevNewIdx)` values after the anchor loop of
`patienceDiffRecursive` started at `(lo, ln)`. -/
def lastBounds (lo ln : Nat) : List (Nat × Nat) → Nat × Nat
  | [] => (lo, ln)
  | (oi, ni) :: rest => lastBounds (oi + 1) (ni + 1) rest

/-- `patienceDiffRecursive`, with the recursion depth bounded by structural
fuel.  Every recursive call operates on a strictly smaller combined range
(see `patienceDiffRec_fuel_stable`), so with `fuel ≥ (oldEnd - oldStart) +
(newEnd - newStart)` — as used by `patienceDiff` — the fuel never runs out. -/
def patienceDiffRec : Nat → List String → Nat → Nat → List String → Nat → Nat → List Run
  | 0, _, _, _, _, _, _ => []
  | fuel + 1, oldLines, oldStart, oldEnd, newLines, newStart, newEnd =>
    if oldEnd ≤ oldStart ∧ newEnd ≤ newStart then []
    else if oldEnd ≤ oldStart then
      [{ value := slice newLines newStart newEnd, added := true }]
    else if newEnd ≤ newStart then
      [{ value := slice oldLines oldStart oldEnd, removed := true }]
    else
      let oldUniques := findUniqueLineIndices oldLines oldStart oldEnd
      let newUniques := findUniqueLineIndices newLines newStart newEnd
      let anchors := findAnchors oldUniques newUniques
      if anchors.isEmpty then
        positionalDiff oldLines oldStart oldEnd newLines newStart newEnd
      else
        let segs := anchorSegments oldStart newStart anchors
        let lastIdx := lastBounds oldStart newStart anchors
        let body :=
          (segs.map fun seg =>
            patienceDiffRec fuel oldLines seg.1 seg.2.1 newLines seg.2.2.1 seg.2.2.2
              ++ [{ value := [oldLines.getD seg.2.1 ""] }]).flatten
          ++ patienceDiffRec fuel oldLines lastIdx.1 oldEnd newLines lastIdx.2 newEnd
        mergeConsecutiveChanges body

/-- `patienceDiff(oldLines, newLines)`: the top-level aligner. -/
def patienceDiff (oldLines newLines : List String) : List Run :=
  patienceDiffRec (oldLines.length + newLines.length)
    oldLines 0 oldLines.length newLines 0 newLines.length

/-- JavaScript `String.prototype.trim()`, modelled on the character list. -/
def jsTrim (cs : List Char) : List Char :=
  ((cs.dropWhile Char.isWhitespace).reverse.dropWhile Char.isWhitespace).reverse

/-- Whether `text.trim().length === 0`, i.e. the line is blank. -/
def isBlank (s : String) : Bool :=
  s.data.all Char.isWhitespace

/-- One `value.replace(/^marker\s?/, '')` step of `normalizeLineForMatch`:
drop a leading marker together with at most one following whitespace
character. -/
def stripLeadingMarker (marker : List Char) (cs : List Char) : List Char :=
  if marker.isPrefixOf cs then
    match cs.drop marker.length with
    | [] => []
    | c :: rest => if c.isWhitespace then rest else c :: rest
  else cs

/-- The `value.replace(/\*\/\s?$/, '')` step of `normalizeLineForMatch`:
drop a trailing block-comment closer, optionally followed by one whitespace
character. -/
def stripTrailingBlockClose (cs : List Char) : List Char :=
  match cs.reverse with
  | '/' :: '*' :: rest => rest.reverse
  | c :: '/' :: '*' :: rest => if c.isWhitespace then rest.reverse else cs
  | _ => cs

/-- The `value.replace(/\s+/g, ' ')` step of `normalizeLineForMatch`:
collapse every whitespace run into one space.  `prevWs` records whether the
previous character was part of a whitespace run. -/
def collapseWs (prevWs : Bool) : List Char → List Char
  | [] => []
  | c :: rest =>
    if c.isWhitespace then
      (if prevWs then [] else [' ']) ++ collapseWs true rest
    else c :: collapseWs false rest

/-- `normalizeLineForMatch(input)`: trim, strip one leading comment marker
(`//`, `#`, `--`, `/*`) and one trailing `*/`, collapse whitespace, trim. -/
def normalizeLineForMatch (input : String) : String :=
  let value := jsTrim input.data
  let v1 := stripLeadingMarker ['/', '/'] value
  let v2 := stripLeadingMarker ['#'] v1
  let v3 := stripLeadingMarker ['-', '-'] v2
  let v4 := stripLeadingMarker ['/', '*'] v3
  let v5 := stripTrailingBlockClose v4
  let v6 := collapseWs false v5
  String.mk (jsTrim v6)

/-- `str.trim().replace(/\s+/g, '')` of `calculateSetSimilarity`: removing
leading/trailing whitespace and then every internal whitespace run deletes
exactly the whitespace characters. -/
def stripAllWhitespace (s : String) : String :=
  String.mk (s.data.filter fun c => !c.isWhitespace)

/-- `calculateSetSimilarity(str1, str2)`: Jaccard similarity of the character
sets of the whitespace-stripped strings.  JS `Set`s (insertion-ordered,
duplicate-free) are modelled by `List.dedup`. -/
def calculateSetSimilarity (str1 str2 : String) : Rat :=
  let cleaned1 := stripAllWhitespace str1
  let cleaned2 := stripAllWhitespace str2
  if cleaned1 = "" ∧ cleaned2 = "" then 1
  else
    let set1 := cleaned1.data.dedup
    let set2 := cleaned2.data.dedup
    let intersection := set1.filter fun x => decide (x ∈ set2)
    let union := (set1 ++ set2).dedup
    if 0 < union.length then (intersection.length : Rat) / (union.length : Rat) else 0

/-- A buffered removed line (`PendingRemovedLine`). -/
structure PendingRemovedLine where
  text : String
  normalized : String
  originalLineNumber : Nat
deriving DecidableEq, Repr

/-- Default used to model JS array indexing in `pairLinesBySimilarity`
(every access is in bounds for the arguments the builder passes). -/
def defaultPending : PendingRemovedLine :=
  { text := "", normalized := "", originalLineNumber := 0 }

/-- `calculatePairSimilarity(deleted, addedLine, addedNormalized)`. -/
def calculatePairSimilarity (deleted : PendingRemovedLine)
    (addedLine addedNormalized : String) : Rat :=
  if 0 < deleted.normalized.data.length ∧ deleted.normalized = addedNormalized then 1
  else
    let rawSimilarity := calculateSetSimilarity deleted.text addedLine
    let normalizedSimilarity := calculateSetSimilarity deleted.normalized addedNormalized
    max rawSimilarity normalizedSimilarity

/-- Result of the pairing heuristic.  The JS `Map<number, number>` keyed by
added index is modelled as the list of `(addedIndex, deletedIndex)` pairs in
insertion order (= iteration order of `forEach`). -/
structure PairingResult where
  pairedByAdded : List (Nat × Nat)
  unpairedDeleted : List Nat
  unpairedAdded : List Nat
deriving DecidableEq, Repr

/-- `pairLinesBySimilarity(deletedLines, addedLines, addedNormalized)`:
with equal counts, pair by position unconditionally; otherwise pair each
added line with the best-scoring unused removed line within offset 5,
accepting scores `≥ 0.6`. -/
def pairLinesBySimilarity (deletedLines : List PendingRemovedLine)
    (addedLines addedNormalized : List String) : PairingResult :=
  if deletedLines.length = addedLines.length then
    -- first pass: same number of lines changed, pair by position
    let idxs := List.range (min deletedLines.length addedLines.length)
    { pairedByAdded := idxs.map fun i => (i, i)
      unpairedDeleted := (List.range deletedLines.length).filter fun j => decide (j ∉ idxs)
      unpairedAdded := (List.range addedLines.length).filter fun i => decide (i ∉ idxs) }
  else
    -- counts differ: similarity-based pairing
    let res := (List.range addedLines.length).foldl
      (fun (st : List (Nat × Nat) × List Nat × List Nat) (i : Nat) =>
        let best := (List.range deletedLines.length).foldl
          (fun (b : Int × Rat) (j : Nat) =>
            if j ∈ st.2.1 then b
            else if 5 < ((j : Int) - (i : Int)).natAbs then b
            else
              let similarity := calculatePairSimilarity
                (deletedLines.getD j defaultPending)
                (addedLines.getD i "") (addedNormalized.getD i "")
              if b.2 < similarity then ((j : Int), similarity) else b)
          (-1, 0)
        if 0 ≤ best.1 ∧ (6 / 10 : Rat) ≤ best.2 then
          (st.1 ++ [(i, best.1.toNat)], st.2.1 ++ [best.1.toNat], st.2.2 ++ [i])
        else st)
      ([], [], [])
    { pairedByAdded := res.1
      unpairedDeleted := (List.range deletedLines.length).filter fun j => decide (j ∉ res.2.1)
      unpairedAdded := (List.range addedLines.length).filter fun i => decide (i ∉ res.2.2) }

/-- The classification of a line-change record. -/
inductive LineChangeType
  | added
  | deleted
  | modified
  | unchanged
deriving DecidableEq, Repr

/-- A per-line change record (`LineChange`). -/
structure LineChange where
  lineNumber : Nat
  type : LineChangeType
  originalLineNumber : Option Nat := none
  oldText : Option String := none
  newText : Option String := none
  anchorLineNumber : Option Nat := none
deriving DecidableEq, Repr

instance : Inhabited LineChange :=
  ⟨{ lineNumber := 0, type := LineChangeType.unchanged }⟩

/-- The classification of a line of the inline view. -/
inductive InlineLineType
  | added
  | deleted
  | unchanged
deriving DecidableEq, Repr

/-- The inline diff view.  The source stores `content` as the lines joined by
`'\n'`; since split lines never contain a newline, the joined string and the
line list determine each other, and the view is modelled by the line list. -/
structure InlineDiffView where
  content : List String
  lineTypes : List InlineLineType
deriving DecidableEq, Repr

/-- The mutable state of the `buildDiffViewFromLines` walk. -/
structure BuildState where
  originalIndex : Nat
  currentIndex : Nat
  originalLineNumber : Nat
  currentLineNumber : Nat
  pendingRemoved : List PendingRemovedLine
  lastMatchedCurrentLine : Nat
  lineChanges : List LineChange
  inlineLines : List String
  inlineTypes : List InlineLineType
deriving DecidableEq, Repr

/-- `flushPendingRemoved()`: emit every buffered removed line as a `deleted`
record anchored at the last matched current line, and as a `deleted` inline
line.  (When the buffer is empty all appended lists are empty.) -/
def flushPendingRemoved (st : BuildState) : BuildState :=
  let anchorLine := st.lastMatchedCurrentLine
  { st with
    lineChanges := st.lineChanges ++ st.pendingRemoved.map fun removed =>
      { lineNumber := st.currentLineNumber
        type := LineChangeType.deleted
        originalLineNumber := some removed.originalLineNumber
        oldText := some removed.text
        anchorLineNumber := some anchorLine }
    inlineLines := st.inlineLines ++ st.pendingRemoved.map PendingRemovedLine.text
    inlineTypes := st.inlineTypes ++ st.pendingRemoved.map fun _ => InlineLineType.deleted
    pendingRemoved := [] }

/-- The `change.removed` branch of the run walk: buffer the run's lines. -/
def processRemovedRun (originalLines originalNormalized : List String)
    (st : BuildState) (length : Nat) : BuildState :=
  { st with
    pendingRemoved := st.pendingRemoved ++ (List.range length).map fun i =>
      { text := originalLines.getD (st.originalIndex + i) ""
        normalized := originalNormalized.getD (st.originalIndex + i) ""
        originalLineNumber := st.originalLineNumber + i }
    originalIndex := st.originalIndex + length
    originalLineNumber := st.originalLineNumber + length }

/-- The `change.added` branch of the run walk: pair buffered removed lines
with the added lines, emit `modified`/`deleted`/`added` records, and append
the surviving removed lines followed by the added lines to the inline view. -/
def processAddedRun (currentLines currentNormalized : List String)
    (st : BuildState) (length : Nat) : BuildState :=
  let addedLines := slice currentLines st.currentIndex (st.currentIndex + length)
  let addedNormalized := slice currentNormalized st.currentIndex (st.currentIndex + length)
  let pairing := pairLinesBySimilarity st.pendingRemoved addedLines addedNormalized
  let modifiedRecords := pairing.pairedByAdded.map fun p =>
    let deleted := st.pendingRemoved.getD p.2 defaultPending
    { lineNumber := st.currentLineNumber + p.1
      type := LineChangeType.modified
      originalLineNumber := some deleted.originalLineNumber
      oldText := some deleted.text
      newText := some (addedLines.getD p.1 "") : LineChange }
  let canSuppressBlankDeletes :=
    !st.pendingRemoved.isEmpty &&
    st.pendingRemoved.all (fun removed => isBlank removed.text) &&
    st.pendingRemoved.length == addedLines.length
  let deletedRecords := pairing.unpairedDeleted.filterMap fun index =>
    let deleted := st.pendingRemoved.getD index defaultPending
    let isBlankDeleted := isBlank deleted.text
    if canSuppressBlankDeletes && isBlankDeleted then none
    else some
      { lineNumber := st.currentLineNumber
        type := LineChangeType.deleted
        originalLineNumber := some deleted.originalLineNumber
        oldText := some deleted.text
        anchorLineNumber := some st.lastMatchedCurrentLine : LineChange }
  let addedRecords := pairing.unpairedAdded.map fun index =>
    { lineNumber := st.currentLineNumber + index
      type := LineChangeType.added
      originalLineNumber := some st.originalLineNumber
      newText := some (addedLines.getD index "") : LineChange }
  let inlineDeleted :=
    if canSuppressBlankDeletes then
      st.pendingRemoved.filter fun removed => !isBlank removed.text
    else st.pendingRemoved
  { st with
    lineChanges := st.lineChanges ++ modifiedRecords ++ deletedRecords ++ addedRecords
    inlineLines := st.inlineLines ++ inlineDeleted.map PendingRemovedLine.text ++ addedLines
    inlineTypes := st.inlineTypes ++ inlineDeleted.map (fun _ => InlineLineType.deleted)
      ++ addedLines.map fun _ => InlineLineType.added
    pendingRemoved := []
    currentIndex := st.currentIndex + length
    currentLineNumber := st.currentLineNumber + length }

/-- The `runLength` counter inside an equal run: the number of successive
position pairs holding distinct lines, bounded by the remaining run length. -/
def mismatchRun (originalLines currentLines : List String) (oi ci : Nat) : Nat → Nat
  | 0 => 0
  | budget + 1 =>
    if originalLines.getD oi "" = currentLines.getD ci "" then 0
    else mismatchRun originalLines currentLines (oi + 1) (ci + 1) budget + 1

/-- The equal-line step inside an equal run: emit the line as `unchanged`
and remember it as the last matched current line. -/
def unchangedStep (currentLines : List String) (st : BuildState) : BuildState :=
  let newLine := currentLines.getD st.currentIndex ""
  { st with
    inlineLines := st.inlineLines ++ [newLine]
    inlineTypes := st.inlineTypes ++ [InlineLineType.unchanged]
    lineChanges := st.lineChanges ++
      [{ lineNumber := st.currentLineNumber
         type := LineChangeType.unchanged
         originalLineNumber := some st.originalLineNumber }]
    originalIndex := st.originalIndex + 1
    currentIndex := st.currentIndex + 1
    originalLineNumber := st.originalLineNumber + 1
    lastMatchedCurrentLine := st.currentLineNumber
    currentLineNumber := st.currentLineNumber + 1 }

/-- The mismatch step inside an equal run: emit `runLength` old lines as
inline `deleted`, the corresponding new lines as inline `added`, and one
`modified` record per position. -/
def mismatchStep (originalLines currentLines : List String)
    (st : BuildState) (runLength : Nat) : BuildState :=
  { st with
    inlineLines := st.inlineLines
      ++ (List.range runLength).map (fun i => originalLines.getD (st.originalIndex + i) "")
      ++ (List.range runLength).map fun i => currentLines.getD (st.currentIndex + i) ""
    inlineTypes := st.inlineTypes
      ++ (List.range runLength).map (fun _ => InlineLineType.deleted)
      ++ (List.range runLength).map fun _ => InlineLineType.added
    lineChanges := st.lineChanges ++ (List.range runLength).map fun i =>
      { lineNumber := st.currentLineNumber + i
        type := LineChangeType.modified
        originalLineNumber := some (st.originalLineNumber + i)
        oldText := some (originalLines.getD (st.originalIndex + i) "")
        newText := some (currentLines.getD (st.currentIndex + i) "") : LineChange }
    originalIndex := st.originalIndex + runLength
    currentIndex := st.currentIndex + runLength
    originalLineNumber := st.originalLineNumber + runLength
    currentLineNumber := st.currentLineNumber + runLength }

/-- The `while (offset < length)` walk over an equal run.  `remaining` is
`length - offset`; each iteration consumes at least one position (a mismatch
run always has length ≥ 1 because its first position mismatches), so the
structural fuel — called with `fuel = remaining` — never runs out. -/
def equalWalk (originalLines currentLines : List String) :
    Nat → Nat → BuildState → BuildState
  | 0, _, st => st
  | _ + 1, 0, st => st
  | fuel + 1, remaining + 1, st =>
    if originalLines.getD st.originalIndex "" = currentLines.getD st.currentIndex "" then
      equalWalk originalLines currentLines fuel remaining (unchangedStep currentLines st)
    else
      let runLength :=
        mismatchRun originalLines currentLines st.originalIndex st.currentIndex (remaining + 1)
      equalWalk originalLines currentLines fuel (remaining + 1 - runLength)
        (mismatchStep originalLines currentLines st runLength)

/-- One iteration of the `arrayDiff.forEach` loop of
`buildDiffViewFromLines`. -/
def processRun (originalLines currentLines originalNormalized currentNormalized : List String)
    (st : BuildState) (change : Run) : BuildState :=
  let length := change.value.length
  if change.removed then processRemovedRun originalLines originalNormalized st length
  else if change.added then processAddedRun currentLines currentNormalized st length
  else
    equalWalk originalLines currentLines length length (flushPendingRemoved st)

/-- The result of `buildDiffViewFromLines`. -/
structure DiffViewResult where
  lineChanges : List LineChange
  inlineView : InlineDiffView
deriving DecidableEq, Repr

/-- `buildDiffViewFromLines(originalLines, currentLines)`. -/
def buildDiffViewFromLines (originalLines currentLines : List String) : DiffViewResult :=
  let originalNormalized := originalLines.map normalizeLineForMatch
  let currentNormalized := currentLines.map normalizeLineForMatch
  let arrayDiff := patienceDiff originalLines currentLines
  let start : BuildState :=
    { originalIndex := 0, currentIndex := 0
      originalLineNumber := 1, currentLineNumber := 1
      pendingRemoved := [], lastMatchedCurrentLine := 0
      lineChanges := [], inlineLines := [], inlineTypes := [] }
  let walked := arrayDiff.foldl
    (processRun originalLines currentLines originalNormalized currentNormalized) start
  let final := flushPendingRemoved walked
  { lineChanges := final.lineChanges
    inlineView := { content := final.inlineLines, lineTypes := final.inlineTypes } }

/-- A block of consecutive changes (`ChangeBlock` of `diffCodeLens.ts`). -/
structure ChangeBlock where
  startLine : Nat
  endLine : Nat
  type : LineChangeType
  changes : List LineChange
  blockIndex : Nat
deriving DecidableEq, Repr

instance : Inhabited ChangeBlock :=
  ⟨{ startLine := 0, endLine := 0, type := LineChangeType.added, changes := [], blockIndex := 0 }⟩

/-- `createBlock(changes, blockIndex)`: `Math.min`/`Math.max` over the line
numbers (the function is only called on non-empty lists; `0` stands for the
JS `Infinity`/`-Infinity` of an empty spread, which never occurs). -/
def createBlock (changes : List LineChange) (blockIndex : Nat) : ChangeBlock :=
  { startLine := match changes with
      | [] => 0
      | c :: cs => cs.foldl (fun m x => min m x.lineNumber) c.lineNumber
    endLine := match changes with
      | [] => 0
      | c :: cs => cs.foldl (fun m x => max m x.lineNumber) c.lineNumber
    type := (changes.headD default).type
    changes := changes
    blockIndex := blockIndex }

/-- Stable insertion into a list sorted by `lineNumber` (used to model the
source's stable `sort((a, b) => a.lineNumber - b.lineNumber)`). -/
def insertByLineNumber (x : LineChange) : List LineChange → List LineChange
  | [] => [x]
  | y :: ys => if x.lineNumber ≤ y.lineNumber then x :: y :: ys else y :: insertByLineNumber x ys

/-- Stable sort of change records by `lineNumber`. -/
def sortByLineNumber (l : List LineChange) : List LineChange :=
  l.foldr insertByLineNumber []

/-- The grouping loop of `getChangeBlocks`.  `current` is the block being
built (non-empty, `prev` is its last element, `currentType` the type of its
first element). -/
def blocksLoop (blocks : List ChangeBlock) (current : List LineChange)
    (currentType : LineChangeType) (prev : LineChange) :
    List LineChange → List ChangeBlock
  | [] => blocks ++ [createBlock current blocks.length]
  | change :: rest =>
    if change.lineNumber ≤ prev.lineNumber + 1 ∧ change.type = currentType then
      blocksLoop blocks (current ++ [change]) currentType change rest
    else
      blocksLoop (blocks ++ [createBlock current blocks.length])
        [change] change.type change rest

/-- `getChangeBlocks`, applied directly to a change-record list (the source
reads the list from the tracker by path first): drop `unchanged` records,
sort by line number, and group maximal runs of consecutive same-type
records. -/
def getChangeBlocks (lineChanges : List LineChange) : List ChangeBlock :=
  let changes := sortByLineNumber
    (lineChanges.filter fun c => decide (c.type ≠ LineChangeType.unchanged))
  match changes with
  | [] => []
  | c :: rest => blocksLoop [] [c] c.type c rest

/-- Two blocks have overlapping `[startLine, endLine]` current-line ranges. -/
def rangesOverlap (b1 b2 : ChangeBlock) : Prop :=
  b1.startLine ≤ b2.endLine ∧ b2.startLine ≤ b1.endLine

/-- Proof-side notion: ordering of consecutive blocks — the earlier block
ends no later than the later one starts, and the boundary between them is
justified by a type change or by a line-number gap greater than one. -/
def blockRel (b b' : ChangeBlock) : Prop :=
  b.endLine ≤ b'.startLine ∧ (b.type ≠ b'.type ∨ b.endLine + 1 < b'.startLine)

/-- The tracked-file entry of `trackedChanges` (only the fields the engine
reads; the editor-API fields are omitted). -/
structure FileDiffEntry where
  originalContent : String
  currentContent : String
deriving DecidableEq, Repr

/-- The per-session state of the `DiffTracker` store: the string-keyed maps
are modelled as association lists, and the ambient
`vscode.workspace.textDocuments` as a further association list. -/
structure TrackerState where
  fileSnapshots : List (String × String)
  lineChangesMap : List (String × List LineChange)
  inlineViewsMap : List (String × InlineDiffView)
  trackedChanges : List (String × FileDiffEntry)
  openDocuments : List (String × String)

/-- `getLineChanges(filePath)`. -/
def getLineChanges (st : TrackerState) (filePath : String) : Option (List LineChange) :=
  List.lookup filePath st.lineChangesMap

/-- `getOriginalContent(filePath)`. -/
def getOriginalContent (st : TrackerState) (filePath : String) : Option String :=
  List.lookup filePath st.fileSnapshots

/-- `getCurrentContent(filePath)`: the tracked current content, else the text
of an open document with that path. -/
def getCurrentContent (st : TrackerState) (filePath : String) : Option String :=
  match List.lookup filePath st.trackedChanges with
  | some tracked => some tracked.currentContent
  | none => List.lookup filePath st.openDocuments

/-- Splitting on `'\n'`, as `String.split` models `content.split('\n')`. -/
def splitLines (content : String) : List String :=
  content.split fun c => c = '\n'

/-- `buildDiffView(filePath)`: `undefined` when either content is missing. -/
def buildDiffView (st : TrackerState) (filePath : String) : Option DiffViewResult :=
  match getOriginalContent st filePath, getCurrentContent st filePath with
  | some originalContent, some currentContent =>
    some (buildDiffViewFromLines (splitLines originalContent) (splitLines currentContent))
  | _, _ => none

/-- `ensureInlineView(filePath)`: the cached view if present, else the view
freshly built from the stored baseline; returns the view (first component)
together with the updated cache state. -/
def ensureInlineView (st : TrackerState) (filePath : String) :
    Option InlineDiffView × TrackerState :=
  match List.lookup filePath st.inlineViewsMap with
  | some cached => (some cached, st)
  | none =>
    match buildDiffView st filePath with
    | none => (none, st)
    | some view =>
      (some view.inlineView,
        { st with
          lineChangesMap := (filePath, view.lineChanges) :: st.lineChangesMap
          inlineViewsMap := (filePath, view.inlineView) :: st.inlineViewsMap })

/-- `getInlineView(filePath)`. -/
def getInlineView (st : TrackerState) (filePath : String) :
    Option InlineDiffView × TrackerState :=
  ensureInlineView st filePath

/-- Modelled from the spec: character-set Jaccard similarity of two strings
after whitespace stripping — `|intersection| / |union|` of the two character
sets, with two empty sets giving `1.0`. -/
def jaccardSpec (s t : String) : Rat :=
  let a := (stripAllWhitespace s).data.toFinset
  let b := (stripAllWhitespace t).data.toFinset
  if a = ∅ ∧ b = ∅ then 1
  else (((a ∩ b).card : Rat)) / (((a ∪ b).card : Rat))

/-- Whether walking the given run list (as `buildDiffViewFromLines` does,
starting with old-line index `origIdx` and buffered removed texts `pending`)
ever reaches an added run for which the blank-delete suppression condition
holds: a non-empty all-blank buffer of exactly the added run's length. -/
def anyBlankSuppression (originalLines : List String) :
    List Run → Nat → List String → Bool
  | [], _, _ => false
  | r :: rest, origIdx, pending =>
    if r.removed then
      anyBlankSuppression originalLines rest (origIdx + r.value.length)
        (pending ++ slice originalLines origIdx (origIdx + r.value.length))
    else if r.added then
      (!pending.isEmpty && pending.all isBlank && pending.length == r.value.length)
      || anyBlankSuppression originalLines rest origIdx []
    else
      anyBlankSuppression originalLines rest (origIdx + r.value.length) []

/-- The lines of an inline view that are not classified `added`
(the old-side reconstruction of the claims). -/
def inlineOldLines (view : InlineDiffView) : List String :=
  ((view.content.zip view.lineTypes).filter fun p =>
    decide (p.2 ≠ InlineLineType.added)).map Prod.fst

/-- The lines of an inline view that are not classified `deleted`
(the new-side reconstruction of the claims). -/
def inlineNewLines (view : InlineDiffView) : List String :=
  ((view.content.zip view.lineTypes).filter fun p =>
    decide (p.2 ≠ InlineLineType.deleted)).map Prod.fst

/-- Proof-side notion: the concatenated line lists of the runs kept by a
predicate on the two flags. -/
def sideLines (P : Bool → Bool → Bool) (runs : List Run) : List String :=
  ((runs.filter fun r => P r.added r.removed).map Run.value).flatten

/-- Proof-side notion: a run constructed by the aligner never carries both
flags. -/
def wellformedRun (r : Run) : Prop :=
  ¬ (r.added = true ∧ r.removed = true)

/-- Proof-side notion: the old-side lines accounted for by a builder state —
the non-`added` inline lines followed by the still-buffered removed lines. -/
def stOld (st : BuildState) : List String :=
  ((st.inlineLines.zip st.inlineTypes).filter fun p =>
    decide (p.2 ≠ InlineLineType.added)).map Prod.fst
    ++ st.pendingRemoved.map PendingRemovedLine.text

/-- Proof-side notion: the new-side lines accounted for by a builder state —
the non-`deleted` inline lines. -/
def stNew (st : BuildState) : List String :=
  ((st.inlineLines.zip st.inlineTypes).filter fun p =>
    decide (p.2 ≠ InlineLineType.deleted)).map Prod.fst

/-- Proof-side notion: validity of an anchor list relative to ranges that
start at `(lo, ln)` and end at `(oldEnd, newEnd)` — each anchor lies inside
the current ranges, and the ranges shrink past each anchor. -/
def anchorsWithin (oldEnd newEnd : Nat) : Nat → Nat → List (Nat × Nat) → Prop
  | _, _, [] => True
  | lo, ln, (oi, ni) :: rest =>
    lo ≤ oi ∧ oi < oldEnd ∧ ln ≤ ni ∧ ni < newEnd ∧
      anchorsWithin oldEnd newEnd (oi + 1) (ni + 1) rest

/-! ### Slice lemmas -/

theorem slice_eq_nil {l : List String} {s e : Nat} (h : e ≤ s) : slice l s e = [] := by
  simp [slice, Nat.sub_eq_zero_of_le h]

theorem slice_full (l : List String) : slice l 0 l.length = l := by
  simp [slice]

theorem slice_length {l : List String} {s e : Nat} :
    (slice l s e).length = min (e - s) (l.length - s) := by
  simp [slice]

theorem slice_length_of_le {l : List String} {s e : Nat} (h1 : s ≤ e) (h2 : e ≤ l.length) :
    (slice l s e).length = e - s := by
  rw [slice_length]
  omega

theorem slice_getElem {l : List String} {s e i : Nat} (h : i < (slice l s e).length) :
    (slice l s e)[i] = l.getD (s + i) "" := by
  have hlen : (slice l s e).length = min (e - s) (l.length - s) := slice_length
  have hb : s + i < l.length := by omega
  rw [List.getD_eq_getElem l "" hb]
  simp only [slice] at h ⊢
  rw [List.getElem_take, List.getElem_drop]

theorem slice_append {l : List String} {s m e : Nat} (h1 : s ≤ m) (h2 : m ≤ e) :
    slice l s m ++ slice l m e = slice l s e := by
  have hdrop : l.drop m = (l.drop s).drop (m - s) := by
    rw [List.drop_drop]
    congr 1
    omega
  have harith : (m - s) + (e - m) = e - s := by omega
  calc slice l s m ++ slice l m e
      = (l.drop s).take (m - s) ++ ((l.drop s).drop (m - s)).take (e - m) := by
        rw [slice, slice, hdrop]
    _ = (l.drop s).take ((m - s) + (e - m)) := by rw [List.take_add]
    _ = slice l s e := by rw [harith]; rfl

theorem slice_singleton {l : List String} {i : Nat} (h : i < l.length) :
    slice l i (i + 1) = [l.getD i ""] := by
  rw [List.getD_eq_getElem l "" h]
  simp only [slice, Nat.add_sub_cancel_left]
  rw [List.drop_eq_getElem_cons h]
  rfl

theorem slice_eq_map_range {l : List String} {s n : Nat} (h : s + n ≤ l.length) :
    slice l s (s + n) = (List.range n).map fun i => l.getD (s + i) "" := by
  apply List.ext_getElem
  · rw [slice_length]
    simp
    omega
  · intro i h1 h2
    rw [slice_getElem h1]
    simp only [List.getElem_map, List.getElem_range]

theorem slice_eq_slice_of_getD {l1 l2 : List String} {s t n : Nat}
    (h1 : s + n ≤ l1.length) (h2 : t + n ≤ l2.length)
    (h : ∀ i < n, l1.getD (s + i) "" = l2.getD (t + i) "") :
    slice l1 s (s + n) = slice l2 t (t + n) := by
  rw [slice_eq_map_range h1, slice_eq_map_range h2]
  apply List.map_congr_left
  intro i hi
  exact h i (List.mem_range.mp hi)

/-! ### Side lemmas (filtered reconstructions) -/

theorem oldReconstruction_eq_sideLines (runs : List Run) :
    oldReconstruction runs = sideLines (fun a _ => !a) runs := by
  unfold oldReconstruction sideLines
  congr 1
  congr 1
  apply List.filter_congr
  intro r _
  cases h : r.added <;> cases h2 : r.removed <;> simp [Run.kind, h, h2]

theorem newReconstruction_eq_sideLines (runs : List Run) :
    newReconstruction runs = sideLines (fun a r => a || !r) runs := by
  unfold newReconstruction sideLines
  congr 1
  congr 1
  apply List.filter_congr
  intro r _
  cases h : r.added <;> cases h2 : r.removed <;> simp [Run.kind, h, h2]

theorem sideLines_append (P : Bool → Bool → Bool) (a b : List Run) :
    sideLines P (a ++ b) = sideLines P a ++ sideLines P b := by
  simp [sideLines]

theorem sideLines_flatten (P : Bool → Bool → Bool) (l : List (List Run)) :
    sideLines P l.flatten = (l.map (sideLines P)).flatten := by
  induction l with
  | nil => rfl
  | cons a l ih => simp [sideLines_append, ih]

theorem sideLines_nil (P : Bool → Bool → Bool) : sideLines P [] = [] := rfl

theorem sideLines_singleton (P : Bool → Bool → Bool) (r : Run) :
    sideLines P [r] = if P r.added r.removed then r.value else [] := by
  by_cases h : P r.added r.removed = true <;> simp [sideLines, List.filter, h]

/-! ### Merge lemmas -/

theorem foldl_mergeStep_sideLines (P : Bool → Bool → Bool) :
    ∀ (l : List Run) (acc : List Run),
      sideLines P (l.foldl mergeStep acc).reverse = sideLines P acc.reverse ++ sideLines P l
  | [], acc => by simp [sideLines]
  | c :: l, acc => by
    rw [List.foldl_cons, foldl_mergeStep_sideLines P l (mergeStep acc c)]
    have hstep : sideLines P (mergeStep acc c).reverse
        = sideLines P acc.reverse ++ sideLines P [c] := by
      unfold mergeStep
      split
      · next hv =>
        rw [sideLines_singleton]
        simp [hv]
      · next hv =>
        split
        · simp [sideLines]
        · next last rest =>
          split
          · next hf =>
            simp only [List.reverse_cons, sideLines_append, sideLines_singleton]
            obtain ⟨hf1, hf2⟩ := hf
            by_cases hP : P c.added c.removed = true
            · simp [hf1, hf2, hP]
            · have hP' : P c.added c.removed = false := by
                revert hP; cases P c.added c.removed <;> simp
              simp [hf1, hf2, hP']
          · next hf =>
            simp only [List.reverse_cons, sideLines_append]
    rw [hstep, List.append_assoc]
    congr 1
    rw [sideLines_singleton]
    by_cases hP : P c.added c.removed = true <;>
      simp [sideLines, List.filter, hP]

theorem mergeConsecutiveChanges_sideLines (P : Bool → Bool → Bool) (l : List Run) :
    sideLines P (mergeConsecutiveChanges l) = sideLines P l := by
  unfold mergeConsecutiveChanges
  rw [foldl_mergeStep_sideLines P l []]
  rfl

/-- The relation "the two runs do not have identical flags". -/
def flagsDiffer (r1 r2 : Run) : Prop :=
  ¬ (r1.added = r2.added ∧ r1.removed = r2.removed)

theorem flagsDiffer_symm {r1 r2 : Run} (h : flagsDiffer r1 r2) : flagsDiffer r2 r1 := by
  unfold flagsDiffer at h ⊢
  intro ⟨h1, h2⟩
  exact h ⟨h1.symm, h2.symm⟩

theorem chain'_mergeStep {acc : List Run} {c : Run}
    (h : List.Chain' flagsDiffer acc) : List.Chain' flagsDiffer (mergeStep acc c) := by
  unfold mergeStep
  split
  · exact h
  · next hv =>
    split
    · simp
    · next last rest =>
      split
      · next hf =>
        match rest, h with
        | [], _ => simp
        | r2 :: rest2, h =>
          rw [List.chain'_cons] at h ⊢
          refine ⟨?_, h.2⟩
          have := h.1
          unfold flagsDiffer at this ⊢
          simpa using this
      · next hf =>
        rw [List.chain'_cons]
        exact ⟨fun hpair => hf ⟨hpair.1.symm, hpair.2.symm⟩, h⟩

theorem chain'_foldl_mergeStep (l : List Run) (acc : List Run)
    (h : List.Chain' flagsDiffer acc) : List.Chain' flagsDiffer (l.foldl mergeStep acc) := by
  induction l generalizing acc with
  | nil => exact h
  | cons c l ih => exact ih (mergeStep acc c) (chain'_mergeStep h)

theorem chain'_mergeConsecutiveChanges (l : List Run) :
    List.Chain' flagsDiffer (mergeConsecutiveChanges l) := by
  unfold mergeConsecutiveChanges
  rw [List.chain'_reverse]
  have := chain'_foldl_mergeStep l [] (by simp)
  exact List.Chain'.imp (fun a b h => flagsDiffer_symm h) this

theorem mem_mergeStep {Q : Bool → Bool → Prop} {acc : List Run} {c : Run}
    (hacc : ∀ r ∈ acc, Q r.added r.removed) (hc : Q c.added c.removed) :
    ∀ r ∈ mergeStep acc c, Q r.added r.removed := by
  unfold mergeStep
  split
  · exact hacc
  · next hv =>
    split
    · intro r hr
      simp at hr
      subst hr
      exact hc
    · next last rest =>
      split
      · next hf =>
        intro r hr
        rcases List.mem_cons.mp hr with h | h
        · subst h
          exact hacc last (by simp)
        · exact hacc r (by simp [h])
      · next hf =>
        intro r hr
        rcases List.mem_cons.mp hr with h | h
        · subst h; exact hc
        · exact hacc r h

theorem mem_mergeConsecutiveChanges (Q : Bool → Bool → Prop) {l : List Run}
    (hl : ∀ r ∈ l, Q r.added r.removed) :
    ∀ r ∈ mergeConsecutiveChanges l, Q r.added r.removed := by
  unfold mergeConsecutiveChanges
  intro r hr
  rw [List.mem_reverse] at hr
  revert r hr
  have main : ∀ (l' : List Run) (acc : List Run),
      (∀ r ∈ acc, Q r.added r.removed) → (∀ r ∈ l', Q r.added r.removed) →
      ∀ r ∈ l'.foldl mergeStep acc, Q r.added r.removed := by
    intro l'
    induction l' with
    | nil => intro acc hacc _ r hr; exact hacc r hr
    | cons c t ih =>
      intro acc hacc hct r hr
      exact ih (mergeStep acc c)
        (mem_mergeStep hacc (hct c (by simp)))
        (fun x hx => hct x (by simp [hx])) r hr
  exact main l [] (by simp) hl

/-! ### Leading/trailing counter lemmas -/

theorem leadingCount_le (ol nl : List String) :
    ∀ (b os ns : Nat), leadingCount ol nl os ns b ≤ b
  | 0, _, _ => Nat.le_refl 0
  | b + 1, os, ns => by
    unfold leadingCount
    split
    · have := leadingCount_le ol nl b (os + 1) (ns + 1)
      omega
    · omega

theorem leadingCount_eq_at (ol nl : List String) :
    ∀ (b os ns i : Nat), i < leadingCount ol nl os ns b →
      ol.getD (os + i) "" = nl.getD (ns + i) ""
  | 0, _, _, _ => by intro h; simp [leadingCount] at h
  | b + 1, os, ns, i => by
    unfold leadingCount
    split
    · next heq =>
      intro hi
      match i with
      | 0 => simpa using heq
      | i + 1 =>
        have := leadingCount_eq_at ol nl b (os + 1) (ns + 1) i (by omega)
        have h1 : os + 1 + i = os + (i + 1) := by omega
        have h2 : ns + 1 + i = ns + (i + 1) := by omega
        rwa [h1, h2] at this
    · intro hi; omega

theorem leadingCount_ne_at (ol nl : List String) :
    ∀ (b os ns : Nat), leadingCount ol nl os ns b < b →
      ol.getD (os + leadingCount ol nl os ns b) "" ≠
        nl.getD (ns + leadingCount ol nl os ns b) ""
  | 0, _, _ => by intro h; omega
  | b + 1, os, ns => by
    unfold leadingCount
    split
    · next heq =>
      intro hlt
      have := leadingCount_ne_at ol nl b (os + 1) (ns + 1) (by omega)
      have h1 : os + 1 + leadingCount ol nl (os + 1) (ns + 1) b
          = os + (leadingCount ol nl (os + 1) (ns + 1) b + 1) := by omega
      have h2 : ns + 1 + leadingCount ol nl (os + 1) (ns + 1) b
          = ns + (leadingCount ol nl (os + 1) (ns + 1) b + 1) := by omega
      rwa [h1, h2] at this
    · next heq =>
      intro _
      simpa using heq

theorem trailingCount_le (ol nl : List String) :
    ∀ (b oe ne : Nat), trailingCount ol nl oe ne b ≤ b
  | 0, _, _ => Nat.le_refl 0
  | b + 1, oe, ne => by
    unfold trailingCount
    split
    · have := trailingCount_le ol nl b (oe - 1) (ne - 1)
      omega
    · omega

theorem trailingCount_eq_at (ol nl : List String) :
    ∀ (b oe ne t : Nat), t < trailingCount ol nl oe ne b →
      ol.getD (oe - 1 - t) "" = nl.getD (ne - 1 - t) ""
  | 0, _, _, _ => by intro h; simp [trailingCount] at h
  | b + 1, oe, ne, t => by
    unfold trailingCount
    split
    · next heq =>
      intro ht
      match t with
      | 0 => simpa using heq
      | t + 1 =>
        have := trailingCount_eq_at ol nl b (oe - 1) (ne - 1) t (by omega)
        have h1 : oe - 1 - 1 - t = oe - 1 - (t + 1) := by omega
        have h2 : ne - 1 - 1 - t = ne - 1 - (t + 1) := by omega
        rwa [h1, h2] at this
    · intro ht; omega

theorem trailingCount_ne_at (ol nl : List String) :
    ∀ (b oe ne : Nat), trailingCount ol nl oe ne b < b →
      ol.getD (oe - 1 - trailingCount ol nl oe ne b) "" ≠
        nl.getD (ne - 1 - trailingCount ol nl oe ne b) ""
  | 0, _, _ => by intro h; omega
  | b + 1, oe, ne => by
    unfold trailingCount
    split
    · next heq =>
      intro hlt
      have := trailingCount_ne_at ol nl b (oe - 1) (ne - 1) (by omega)
      have h1 : oe - 1 - 1 - trailingCount ol nl (oe - 1) (ne - 1) b
          = oe - 1 - (trailingCount ol nl (oe - 1) (ne - 1) b + 1) := by omega
      have h2 : ne - 1 - 1 - trailingCount ol nl (oe - 1) (ne - 1) b
          = ne - 1 - (trailingCount ol nl (oe - 1) (ne - 1) b + 1) := by omega
      rwa [h1, h2] at this
    · next heq =>
      intro _
      simpa using heq

theorem leading_slice_eq {ol nl : List String} {os ns b : Nat}
    (h1 : os + leadingCount ol nl os ns b ≤ ol.length)
    (h2 : ns + leadingCount ol nl os ns b ≤ nl.length) :
    slice ol os (os + leadingCount ol nl os ns b)
      = slice nl ns (ns + leadingCount ol nl os ns b) := by
  exact slice_eq_slice_of_getD h1 h2 fun i hi => leadingCount_eq_at ol nl b os ns i hi

theorem trailing_slice_eq {ol nl : List String} {oe ne b : Nat}
    (hT1 : trailingCount ol nl oe ne b ≤ oe) (hT2 : trailingCount ol nl oe ne b ≤ ne)
    (h1 : oe ≤ ol.length) (h2 : ne ≤ nl.length) :
    slice ol (oe - trailingCount ol nl oe ne b) oe
      = slice nl (ne - trailingCount ol nl oe ne b) ne := by
  have e1 : oe = (oe - trailingCount ol nl oe ne b) + trailingCount ol nl oe ne b := by omega
  have e2 : ne = (ne - trailingCount ol nl oe ne b) + trailingCount ol nl oe ne b := by omega
  rw [show slice ol (oe - trailingCount ol nl oe ne b) oe
      = slice ol (oe - trailingCount ol nl oe ne b)
        ((oe - trailingCount ol nl oe ne b) + trailingCount ol nl oe ne b) by rw [← e1],
    show slice nl (ne - trailingCount ol nl oe ne b) ne
      = slice nl (ne - trailingCount ol nl oe ne b)
        ((ne - trailingCount ol nl oe ne b) + trailingCount ol nl oe ne b) by rw [← e2]]
  apply slice_eq_slice_of_getD (by omega) (by omega)
  intro i hi
  have := trailingCount_eq_at ol nl b oe ne (trailingCount ol nl oe ne b - 1 - i) (by omega)
  have e3 : oe - 1 - (trailingCount ol nl oe ne b - 1 - i)
      = oe - trailingCount ol nl oe ne b + i := by omega
  have e4 : ne - 1 - (trailingCount ol nl oe ne b - 1 - i)
      = ne - trailingCount ol nl oe ne b + i := by omega
  rwa [e3, e4] at this

/-! ### Positional diff lemmas -/

theorem sideLines_cons (P : Bool → Bool → Bool) (r : Run) (l : List Run) :
    sideLines P (r :: l) = (if P r.added r.removed then r.value else []) ++ sideLines P l := by
  by_cases h : P r.added r.removed = true <;> simp [sideLines, List.filter_cons, h]

theorem ite_eq_of_nil {c : Prop} [Decidable c] {x : List String}
    (h : ¬c → x = []) : (if c then x else []) = x := by
  split
  · rfl
  · next hc => exact (h hc).symm

theorem sideLines_ite (P : Bool → Bool → Bool) (c : Prop) [Decidable c] (r : Run) :
    sideLines P (if c then [r] else [])
      = if c then (if P r.added r.removed then r.value else []) else [] := by
  split
  · exact sideLines_singleton P r
  · rfl

theorem positionalDiff_oldSide (ol : List String) (os oe : Nat) (nl : List String) (ns ne : Nat) :
    sideLines (fun a _ => !a) (positionalDiff ol os oe nl ns ne) = slice ol os oe := by
  simp only [positionalDiff]
  by_cases h1 : oe - os = 0 ∧ 0 < ne - ns
  · -- pure insertion: nothing survives on the old side, and the old range is empty
    rw [if_pos h1, sideLines_singleton, slice_eq_nil (show oe ≤ os by omega)]
    simp
  rw [if_neg h1]
  by_cases h2 : ne - ns = 0 ∧ 0 < oe - os
  · rw [if_pos h2, sideLines_singleton]
    simp
  rw [if_neg h2]
  by_cases h3 : oe - os > ne - ns ∧
      slice ol (os + (oe - os - (ne - ns))) oe = slice nl ns ne
  · -- deletion at the start
    rw [if_pos h3, sideLines_cons, sideLines_singleton]
    simp
    exact slice_append (by omega) (by omega)
  rw [if_neg h3]
  by_cases h4 : oe - os > ne - ns ∧ slice ol os (os + (ne - ns)) = slice nl ns ne
  · -- deletion at the end
    rw [if_pos h4, sideLines_cons, sideLines_singleton]
    simp
    exact slice_append (by omega) (by omega)
  rw [if_neg h4]
  by_cases h5 : ne - ns > oe - os ∧
      slice nl (ns + (ne - ns - (oe - os))) ne = slice ol os oe
  · -- addition at the start: only the equal run survives
    rw [if_pos h5, sideLines_cons, sideLines_singleton]
    simp
    exact h5.2
  rw [if_neg h5]
  by_cases h6 : ne - ns > oe - os ∧ slice nl ns (ns + (oe - os)) = slice ol os oe
  · -- addition at the end: only the equal run survives
    rw [if_pos h6, sideLines_cons, sideLines_singleton]
    simp
    exact h6.2
  rw [if_neg h6]
  -- leading/trailing stripping
  set minLen := min (oe - os) (ne - ns) with hmin
  set L := leadingCount ol nl os ns minLen with hLdef
  set T := trailingCount ol nl oe ne (minLen - L) with hTdef
  have hLle : L ≤ minLen := leadingCount_le ol nl minLen os ns
  have hTle : T ≤ minLen - L := trailingCount_le ol nl (minLen - L) oe ne
  have hmle : minLen ≤ oe - os := hmin ▸ Nat.min_le_left (oe - os) (ne - ns)
  have master : slice ol os (os + L) ++ (slice ol (os + L) (oe - T) ++ slice ol (oe - T) oe)
      = slice ol os oe := by
    by_cases hcase : os < oe
    · rw [slice_append (show os + L ≤ oe - T by omega) (show oe - T ≤ oe by omega),
        slice_append (show os ≤ os + L by omega) (show os + L ≤ oe by omega)]
    · have hL0 : L = 0 := by omega
      have hT0 : T = 0 := by omega
      rw [hL0, hT0]
      simp only [Nat.add_zero, Nat.sub_zero]
      rw [slice_eq_nil (Nat.le_refl os), slice_eq_nil (Nat.le_refl oe)]
      simp
  rw [sideLines_append, sideLines_append, sideLines_append]
  have p1 : sideLines (fun a _ => !a)
      (if 0 < L then [{ value := slice ol os (os + L) : Run }] else [])
      = slice ol os (os + L) := by
    split
    · rw [sideLines_singleton]; simp
    · next hc => rw [sideLines_nil, slice_eq_nil (show os + L ≤ os by omega)]
  have p2 : sideLines (fun a _ => !a)
      (if os + L < oe - T then
        [{ value := slice ol (os + L) (oe - T), removed := true : Run }] else [])
      = slice ol (os + L) (oe - T) := by
    split
    · rw [sideLines_singleton]; simp
    · next hc => rw [sideLines_nil, slice_eq_nil (show oe - T ≤ os + L by omega)]
  have p3 : sideLines (fun a _ => !a)
      (if ns + L < ne - T then
        [{ value := slice nl (ns + L) (ne - T), added := true : Run }] else [])
      = [] := by
    split
    · rw [sideLines_singleton]; simp
    · rfl
  have p4 : sideLines (fun a _ => !a)
      (if 0 < T then [{ value := slice ol (oe - T) oe : Run }] else [])
      = slice ol (oe - T) oe := by
    split
    · rw [sideLines_singleton]; simp
    · next hc => rw [sideLines_nil, slice_eq_nil (show oe ≤ oe - T by omega)]
  rw [p1, p2, p3, p4]
  simpa [List.append_assoc] using master

theorem positionalDiff_newSide (ol : List String) (os oe : Nat) (nl : List String) (ns ne : Nat)
    (hoe : oe ≤ ol.length) (hne : ne ≤ nl.length) :
    sideLines (fun a r => a || !r) (positionalDiff ol os oe nl ns ne) = slice nl ns ne := by
  simp only [positionalDiff]
  by_cases h1 : oe - os = 0 ∧ 0 < ne - ns
  · rw [if_pos h1, sideLines_singleton]
    simp
  rw [if_neg h1]
  by_cases h2 : ne - ns = 0 ∧ 0 < oe - os
  · -- pure deletion: nothing survives on the new side, and the new range is empty
    rw [if_pos h2, sideLines_singleton, slice_eq_nil (show ne ≤ ns by omega)]
    simp
  rw [if_neg h2]
  by_cases h3 : oe - os > ne - ns ∧
      slice ol (os + (oe - os - (ne - ns))) oe = slice nl ns ne
  · rw [if_pos h3, sideLines_cons, sideLines_singleton]
    simp
    exact h3.2
  rw [if_neg h3]
  by_cases h4 : oe - os > ne - ns ∧ slice ol os (os + (ne - ns)) = slice nl ns ne
  · rw [if_pos h4, sideLines_cons, sideLines_singleton]
    simp
    exact h4.2
  rw [if_neg h4]
  by_cases h5 : ne - ns > oe - os ∧
      slice nl (ns + (ne - ns - (oe - os))) ne = slice ol os oe
  · rw [if_pos h5, sideLines_cons, sideLines_singleton]
    simp
    exact slice_append (by omega) (by omega)
  rw [if_neg h5]
  by_cases h6 : ne - ns > oe - os ∧ slice nl ns (ns + (oe - os)) = slice ol os oe
  · rw [if_pos h6, sideLines_cons, sideLines_singleton]
    simp
    exact slice_append (by omega) (by omega)
  rw [if_neg h6]
  set minLen := min (oe - os) (ne - ns) with hmin
  set L := leadingCount ol nl os ns minLen with hLdef
  set T := trailingCount ol nl oe ne (minLen - L) with hTdef
  have hLle : L ≤ minLen := leadingCount_le ol nl minLen os ns
  have hTle : T ≤ minLen - L := trailingCount_le ol nl (minLen - L) oe ne
  have hmleo : minLen ≤ oe - os := hmin ▸ Nat.min_le_left (oe - os) (ne - ns)
  have hmlen : minLen ≤ ne - ns := hmin ▸ Nat.min_le_right (oe - os) (ne - ns)
  have master : slice nl ns (ns + L) ++ (slice nl (ns + L) (ne - T) ++ slice nl (ne - T) ne)
      = slice nl ns ne := by
    by_cases hcase : ns < ne
    · rw [slice_append (show ns + L ≤ ne - T by omega) (show ne - T ≤ ne by omega),
        slice_append (show ns ≤ ns + L by omega) (show ns + L ≤ ne by omega)]
    · have hL0 : L = 0 := by omega
      have hT0 : T = 0 := by omega
      rw [hL0, hT0]
      simp only [Nat.add_zero, Nat.sub_zero]
      rw [slice_eq_nil (Nat.le_refl ns), slice_eq_nil (Nat.le_refl ne)]
      simp
  rw [sideLines_append, sideLines_append, sideLines_append]
  have p1 : sideLines (fun a r => a || !r)
      (if 0 < L then [{ value := slice ol os (os + L) : Run }] else [])
      = slice nl ns (ns + L) := by
    split
    · next hc =>
      rw [sideLines_singleton]
      simp only [Bool.false_or, Bool.not_false, if_pos rfl]
      exact leading_slice_eq (by omega) (by omega)
    · next hc =>
      rw [sideLines_nil, slice_eq_nil (show ns + L ≤ ns by omega)]
  have p2 : sideLines (fun a r => a || !r)
      (if os + L < oe - T then
        [{ value := slice ol (os + L) (oe - T), removed := true : Run }] else [])
      = [] := by
    split
    · rw [sideLines_singleton]; simp
    · rfl
  have p3 : sideLines (fun a r => a || !r)
      (if ns + L < ne - T then
        [{ value := slice nl (ns + L) (ne - T), added := true : Run }] else [])
      = slice nl (ns + L) (ne - T) := by
    split
    · rw [sideLines_singleton]; simp
    · next hc => rw [sideLines_nil, slice_eq_nil (show ne - T ≤ ns + L by omega)]
  have p4 : sideLines (fun a r => a || !r)
      (if 0 < T then [{ value := slice ol (oe - T) oe : Run }] else [])
      = slice nl (ne - T) ne := by
    split
    · next hc =>
      rw [sideLines_singleton]
      simp only [Bool.false_or, Bool.not_false, if_pos rfl]
      exact trailing_slice_eq (by omega) (by omega) hoe hne
    · next hc =>
      rw [sideLines_nil, slice_eq_nil (show ne ≤ ne - T by omega)]
  rw [p1, p2, p3, p4]
  simpa [List.append_assoc] using master

theorem positionalDiff_wellformed (ol : List String) (os oe : Nat)
    (nl : List String) (ns ne : Nat) :
    ∀ r ∈ positionalDiff ol os oe nl ns ne, wellformedRun r := by
  intro r hr
  simp only [positionalDiff] at hr
  split_ifs at hr <;>
    (simp only [List.mem_append, List.mem_cons, List.mem_singleton, List.not_mem_nil,
        or_false, false_or, or_assoc] at hr <;>
      (rcases hr with rfl | rfl | rfl | rfl <;> simp [wellformedRun]))

/-- Auxiliary: chains of up to four optional runs with kinds
equal / deleted / inserted / equal never put two runs of the same kind next
to each other, provided the two equal runs cannot be present while both
middles are absent. -/
theorem chainOpt {c1 c2 c3 c4 : Prop} [Decidable c1] [Decidable c2] [Decidable c3] [Decidable c4]
    {r1 r2 r3 r4 : Run}
    (k1 : r1.kind = RunKind.equal) (k2 : r2.kind = RunKind.deleted)
    (k3 : r3.kind = RunKind.inserted) (k4 : r4.kind = RunKind.equal)
    (himp : c1 → c4 → c2 ∨ c3) :
    List.Chain' (fun a b => a.kind ≠ b.kind)
      ((if c1 then [r1] else []) ++ (if c2 then [r2] else [])
        ++ (if c3 then [r3] else []) ++ (if c4 then [r4] else [])) := by
  split_ifs <;> simp_all [List.chain'_cons]

theorem positionalDiff_chain' (ol : List String) (os oe : Nat) (nl : List String) (ns ne : Nat) :
    List.Chain' (fun a b => a.kind ≠ b.kind) (positionalDiff ol os oe nl ns ne) := by
  simp only [positionalDiff]
  by_cases h1 : oe - os = 0 ∧ 0 < ne - ns
  · rw [if_pos h1]; simp
  rw [if_neg h1]
  by_cases h2 : ne - ns = 0 ∧ 0 < oe - os
  · rw [if_pos h2]; simp
  rw [if_neg h2]
  by_cases h3 : oe - os > ne - ns ∧
      slice ol (os + (oe - os - (ne - ns))) oe = slice nl ns ne
  · rw [if_pos h3]; simp [Run.kind]
  rw [if_neg h3]
  by_cases h4 : oe - os > ne - ns ∧ slice ol os (os + (ne - ns)) = slice nl ns ne
  · rw [if_pos h4]; simp [Run.kind]
  rw [if_neg h4]
  by_cases h5 : ne - ns > oe - os ∧
      slice nl (ns + (ne - ns - (oe - os))) ne = slice ol os oe
  · rw [if_pos h5]; simp [Run.kind]
  rw [if_neg h5]
  by_cases h6 : ne - ns > oe - os ∧ slice nl ns (ns + (oe - os)) = slice ol os oe
  · rw [if_pos h6]; simp [Run.kind]
  rw [if_neg h6]
  set minLen := min (oe - os) (ne - ns) with hmin
  set L := leadingCount ol nl os ns minLen with hLdef
  set T := trailingCount ol nl oe ne (minLen - L) with hTdef
  have hLle : L ≤ minLen := leadingCount_le ol nl minLen os ns
  have hTle : T ≤ minLen - L := trailingCount_le ol nl (minLen - L) oe ne
  have hmleo : minLen ≤ oe - os := hmin ▸ Nat.min_le_left (oe - os) (ne - ns)
  have hmlen : minLen ≤ ne - ns := hmin ▸ Nat.min_le_right (oe - os) (ne - ns)
  rw [List.append_assoc, List.append_assoc]
  rw [← List.append_assoc, ← List.append_assoc]
  apply chainOpt (by simp [Run.kind]) (by simp [Run.kind]) (by simp [Run.kind])
    (by simp [Run.kind])
  -- both equal pieces present while both middles are absent is impossible:
  -- the leading scan stopped at a mismatch that the trailing scan would
  -- have had to cross.
  intro hL hT
  by_contra hmid
  push_neg at hmid
  obtain ⟨hm1, hm2⟩ := hmid
  have hold : oe - os ≤ L + T := by omega
  have hnew : ne - ns ≤ L + T := by omega
  have heqLT : L + T = minLen := by omega
  have hLlt : L < minLen := by omega
  have hmis := leadingCount_ne_at ol nl minLen os ns (by omega)
  have heq := trailingCount_eq_at ol nl (minLen - L) oe ne (T - 1) (by omega)
  have e1 : oe - 1 - (T - 1) = os + L := by omega
  have e2 : ne - 1 - (T - 1) = ns + L := by omega
  rw [e1, e2] at heq
  exact hmis heq

/-! ### Unique-line and anchor lemmas -/

theorem foldl_invariant {α β : Type} (P : β → Prop) (f : β → α → β) (l : List α) (init : β)
    (h0 : P init) (hstep : ∀ b a, P b → a ∈ l → P (f b a)) : P (l.foldl f init) :=
  List.foldlRecOn l f init h0 fun b hb a ha => hstep b a hb ha

theorem mem_findUniqueLineIndices {lines : List String} {s e : Nat} {p : String × Nat}
    (h : p ∈ findUniqueLineIndices lines s e) :
    s ≤ p.2 ∧ p.2 < e ∧ lines.getD p.2 "" = p.1 ∧ (slice lines s e).count p.1 = 1 := by
  rw [findUniqueLineIndices] at h
  rcases List.mem_filterMap.mp h with ⟨i, hi, hf⟩
  rw [List.mem_range'] at hi
  obtain ⟨k, hk, hik⟩ := hi
  split at hf
  · next hcount =>
    have := Option.some.inj hf
    subst this
    refine ⟨by omega, by omega, rfl, hcount⟩
  · exact absurd hf (by simp)

theorem pairwise_findUniqueLineIndices (lines : List String) (s e : Nat) :
    List.Pairwise (fun a b => a.2 < b.2) (findUniqueLineIndices lines s e) := by
  rw [findUniqueLineIndices, List.pairwise_filterMap]
  have hr := List.pairwise_lt_range' s (e - s) 1
  refine hr.imp ?_
  intro a b hab p hp q hq
  simp only [Option.mem_def] at hp hq
  split at hp
  · split at hq
    · have h1 := Option.some.inj hp
      have h2 := Option.some.inj hq
      subst h1; subst h2
      exact hab
    · exact absurd hq (by simp)
  · exact absurd hp (by simp)

theorem two_le_count_of_getD {l : List String} {a : String} (n m : Nat)
    (hn : n < l.length) (hm : m < l.length) (hnm : n < m)
    (h1 : l.getD n "" = a) (h2 : l.getD m "" = a) : 2 ≤ l.count a := by
  have hsplit : l = l.take m ++ l.drop m := (List.take_append_drop m l).symm
  rw [hsplit, List.count_append]
  have c1 : 0 < (l.take m).count a := by
    rw [List.count_pos_iff]
    have hlt : n < (l.take m).length := by simp; omega
    have : (l.take m)[n] = a := by
      rw [List.getElem_take, ← List.getD_eq_getElem l "" hn]
      exact h1
    rw [← this]
    exact List.getElem_mem hlt
  have c2 : 0 < (l.drop m).count a := by
    rw [List.count_pos_iff]
    have hlt : 0 < (l.drop m).length := by simp; omega
    have : (l.drop m)[0] = a := by
      rw [List.getElem_drop, ← List.getD_eq_getElem l "" (by omega)]
      have : m + 0 = m := by omega
      rw [this]
      exact h2
    rw [← this]
    exact List.getElem_mem hlt
  omega

theorem slice_getD {l : List String} {s e k : Nat} (hk : k < e - s) (hle : e ≤ l.length)
    (hse : s ≤ e) : (slice l s e).getD k "" = l.getD (s + k) "" := by
  have hlen : (slice l s e).length = e - s := slice_length_of_le hse hle
  have hk2 : k < (slice l s e).length := by omega
  rw [List.getD_eq_getElem _ "" hk2, slice_getElem hk2]

theorem findUniqueLineIndices_key_inj {lines : List String} {s e : Nat}
    (hle : e ≤ lines.length) {a : String} {i j : Nat}
    (hi : (a, i) ∈ findUniqueLineIndices lines s e)
    (hj : (a, j) ∈ findUniqueLineIndices lines s e) : i = j := by
  obtain ⟨hi1, hi2, hi3, hi4⟩ := mem_findUniqueLineIndices hi
  obtain ⟨hj1, hj2, hj3, hj4⟩ := mem_findUniqueLineIndices hj
  simp only at hi1 hi2 hi3 hi4 hj1 hj2 hj3 hj4
  by_contra hne
  have hslen : (slice lines s e).length = e - s := slice_length_of_le (by omega) hle
  have hgi : (slice lines s e).getD (i - s) "" = a := by
    rw [slice_getD (by omega) hle (by omega), show s + (i - s) = i by omega]
    exact hi3
  have hgj : (slice lines s e).getD (j - s) "" = a := by
    rw [slice_getD (by omega) hle (by omega), show s + (j - s) = j by omega]
    exact hj3
  have hcnt : 2 ≤ (slice lines s e).count a := by
    rcases Nat.lt_or_ge i j with hij | hij
    · exact two_le_count_of_getD (i - s) (j - s)
        (by omega) (by omega) (by omega) hgi hgj
    · exact two_le_count_of_getD (j - s) (i - s)
        (by omega) (by omega) (by omega) hgj hgi
  omega

theorem lookup_mem {a : String} {b : Nat} {l : List (String × Nat)}
    (h : List.lookup a l = some b) : (a, b) ∈ l := by
  induction l with
  | nil => simp [List.lookup] at h
  | cons p t ih =>
    obtain ⟨k, v⟩ := p
    simp only [List.lookup] at h
    split at h
    · next hk =>
      have hb := Option.some.inj h
      have hak : a = k := by simpa using hk
      subst hb; subst hak
      exact List.mem_cons_self _ _
    · exact List.mem_cons_of_mem _ (ih h)

theorem lookup_eq_some_of_mem {l : List (String × Nat)} {p : String × Nat}
    (hinj : ∀ q ∈ l, ∀ q' ∈ l, q.1 = q'.1 → q.2 = q'.2)
    (hp : p ∈ l) : List.lookup p.1 l = some p.2 := by
  induction l with
  | nil => cases hp
  | cons q t ih =>
    obtain ⟨k, v⟩ := q
    simp only [List.lookup]
    split
    · next hk =>
      have hak : p.1 = k := by simpa using hk
      have := hinj p hp (k, v) (List.mem_cons_self _ _) hak
      simp at this
      rw [this]
    · next hk =>
      have hak : p.1 ≠ k := by simpa using hk
      rcases List.mem_cons.mp hp with h | h
      · exact absurd (congrArg Prod.fst h) hak
      · exact ih (fun a ha b hb => hinj a (List.mem_cons_of_mem _ ha)
          b (List.mem_cons_of_mem _ hb)) h

/-! ### Longest-increasing-subsequence lemmas -/

theorem lisBest_some {nums dps : List Nat} {i d j : Nat}
    (h : lisBest nums dps i = (d, some j)) :
    j < i ∧ nums.getD j 0 < nums.getD i 0 := by
  have inv : ∀ (b : Nat × Option Nat),
      (∀ j', b.2 = some j' → j' < i ∧ nums.getD j' 0 < nums.getD i 0) →
      ∀ a ∈ List.range i,
      ∀ j', ((if nums.getD a 0 < nums.getD i 0 ∧ b.1 < dps.getD a 0 + 1 then
        (dps.getD a 0 + 1, some a) else b) : Nat × Option Nat).2 = some j' →
        j' < i ∧ nums.getD j' 0 < nums.getD i 0 := by
    intro b hb a ha j' hj'
    split at hj'
    · next hcond =>
      have := Option.some.inj hj'
      subst this
      exact ⟨List.mem_range.mp ha, hcond.1⟩
    · exact hb j' hj'
  have := foldl_invariant (fun b : Nat × Option Nat =>
      ∀ j', b.2 = some j' → j' < i ∧ nums.getD j' 0 < nums.getD i 0)
    (fun acc j =>
      if nums.getD j 0 < nums.getD i 0 ∧ acc.1 < dps.getD j 0 + 1 then
        (dps.getD j 0 + 1, some j)
      else acc)
    (List.range i) (1, none)
    (by intro j' h'; simp at h') (fun b a hb ha => inv b hb a ha)
  rw [lisBest] at h
  exact this j (by rw [h])

theorem lisTablesUpTo_succ (nums : List Nat) (n : Nat) :
    lisTablesUpTo nums (n + 1) = lisStep nums (lisTablesUpTo nums n) n := by
  rw [lisTablesUpTo, List.range_succ, List.foldl_append]
  rfl

theorem lisTablesUpTo_spec (nums : List Nat) :
    ∀ n, (lisTablesUpTo nums n).1.length = n ∧ (lisTablesUpTo nums n).2.length = n ∧
      ∀ i j, (lisTablesUpTo nums n).2.getD i none = some j →
        j < i ∧ nums.getD j 0 < nums.getD i 0
  | 0 => by
    refine ⟨rfl, rfl, ?_⟩
    intro i j h
    simp [lisTablesUpTo] at h
  | n + 1 => by
    obtain ⟨ih1, ih2, ih3⟩ := lisTablesUpTo_spec nums n
    rw [lisTablesUpTo_succ, lisStep]
    refine ⟨by simp [ih1], by simp [ih2], ?_⟩
    intro i j hij
    simp only at hij
    by_cases hi : i < n
    · rw [List.getD_append _ _ _ _ (by omega)] at hij
      exact ih3 i j hij
    · by_cases hieq : i = n
      · subst hieq
        rw [List.getD_append_right _ _ _ _ (by omega), ih2, Nat.sub_self] at hij
        rcases h : lisBest nums (lisTablesUpTo nums i).1 i with ⟨d, op⟩
        rw [h] at hij
        simp at hij
        subst hij
        exact lisBest_some h
      · rw [List.getD_eq_default] at hij
        · simp at hij
        · simp only [List.length_append, ih2]
          simp
          omega

theorem lisTables_spec (nums : List Nat) :
    (lisTables nums).1.length = nums.length ∧ (lisTables nums).2.length = nums.length ∧
    ∀ i j, (lisTables nums).2.getD i none = some j →
      j < i ∧ nums.getD j 0 < nums.getD i 0 :=
  lisTablesUpTo_spec nums nums.length

theorem lisMaxIdx_lt (dps : List Nat) (h : 0 < dps.length) : lisMaxIdx dps < dps.length := by
  rw [lisMaxIdx]
  exact foldl_invariant (fun b : Nat × Nat => b.2 < dps.length)
    (fun best i => if best.1 < dps.getD i 0 then (dps.getD i 0, i) else best)
    (List.range dps.length) (0, 0) h
    (by
      intro b a hb ha
      dsimp only
      split
      · exact List.mem_range.mp ha
      · exact hb)

theorem lisChainFuel_spec {parents : List (Option Nat)} (Q : Nat → Nat → Prop)
    (hQt : ∀ a b c, Q a b → Q b c → Q a c)
    (hpar : ∀ i j, parents.getD i none = some j → j < i ∧ Q j i) :
    ∀ fuel i, i ≤ fuel →
      (∀ m ∈ lisChainFuel parents fuel i, m = i ∨ (m < i ∧ Q m i)) ∧
      List.Pairwise (fun a b => a < b ∧ Q a b) (lisChainFuel parents fuel i) := by
  intro fuel
  induction fuel with
  | zero =>
    intro i _
    constructor
    · intro m hm
      simp only [lisChainFuel, List.mem_singleton] at hm
      exact Or.inl hm
    · simp [lisChainFuel]
  | succ fuel ih =>
    intro i hi
    rw [lisChainFuel]
    split
    · constructor
      · intro m hm
        simp only [List.mem_singleton] at hm
        exact Or.inl hm
      · simp
    · next j hp =>
      obtain ⟨hji, hQji⟩ := hpar i j hp
      rw [if_pos hji]
      obtain ⟨ihmem, ihpw⟩ := ih j (by omega)
      have hmemi : ∀ m ∈ lisChainFuel parents fuel j, m < i ∧ Q m i := by
        intro m hm
        rcases ihmem m hm with rfl | ⟨hmj, hQmj⟩
        · exact ⟨hji, hQji⟩
        · exact ⟨by omega, hQt m j i hQmj hQji⟩
      constructor
      · intro m hm
        rcases List.mem_append.mp hm with h | h
        · exact Or.inr (hmemi m h)
        · simp only [List.mem_singleton] at h
          exact Or.inl h
      · rw [List.pairwise_append]
        refine ⟨ihpw, by simp, ?_⟩
        intro a ha b hb
        simp only [List.mem_singleton] at hb
        subst hb
        exact hmemi a ha

theorem lis_mem_lt {nums : List Nat} :
    ∀ m ∈ longestIncreasingSubsequence nums, m < nums.length := by
  intro m hm
  rw [longestIncreasingSubsequence] at hm
  split at hm
  · simp at hm
  · next hne =>
    have hlen : 0 < nums.length := by
      cases nums
      · simp at hne
      · simp
    obtain ⟨hd, hp, hpar⟩ := lisTables_spec nums
    have hmax : lisMaxIdx (lisTables nums).1 < nums.length := by
      have := lisMaxIdx_lt (lisTables nums).1 (by omega)
      omega
    have := (lisChainFuel_spec (fun a b => nums.getD a 0 < nums.getD b 0)
      (fun a b c h1 h2 => Nat.lt_trans h1 h2)
      (fun i j h => hpar i j h)
      (lisMaxIdx (lisTables nums).1) (lisMaxIdx (lisTables nums).1) (Nat.le_refl _)).1
    rcases this m hm with rfl | ⟨hlt, _⟩
    · exact hmax
    · omega

theorem lis_pairwise {nums : List Nat} :
    List.Pairwise (fun a b => a < b ∧ nums.getD a 0 < nums.getD b 0)
      (longestIncreasingSubsequence nums) := by
  rw [longestIncreasingSubsequence]
  split
  · simp
  · obtain ⟨hd, hp, hpar⟩ := lisTables_spec nums
    exact (lisChainFuel_spec (fun a b => nums.getD a 0 < nums.getD b 0)
      (fun a b c h1 h2 => Nat.lt_trans h1 h2)
      (fun i j h => hpar i j h)
      (lisMaxIdx (lisTables nums).1) (lisMaxIdx (lisTables nums).1) (Nat.le_refl _)).2

/-! ### findAnchors lemmas -/

theorem mem_commonUniques {oldU newU : List (String × Nat)} {q : Nat × Nat}
    (h : q ∈ commonUniques oldU newU) :
    ∃ a : String, (a, q.1) ∈ oldU ∧ List.lookup a newU = some q.2 := by
  rcases List.mem_filterMap.mp h with ⟨p, hp, hf⟩
  rcases hl : List.lookup p.1 newU with _ | ni
  · rw [hl] at hf
    simp at hf
  · rw [hl] at hf
    simp only [Option.some.injEq] at hf
    refine ⟨p.1, ?_, ?_⟩
    · have h1 : q.1 = p.2 := by rw [← hf]
      rw [h1]
      exact hp
    · have h2 : q.2 = ni := by rw [← hf]
      rw [h2]
      exact hl

theorem pairwise_commonUniques {oldU newU : List (String × Nat)}
    (hpw : List.Pairwise (fun a b => a.2 < b.2) oldU) :
    List.Pairwise (fun a b : Nat × Nat => a.1 < b.1) (commonUniques oldU newU) := by
  rw [commonUniques, List.pairwise_filterMap]
  refine hpw.imp ?_
  intro a b hab p hp q hq
  simp only [Option.mem_def] at hp hq
  rcases hla : List.lookup a.1 newU with _ | na
  · rw [hla] at hp; simp at hp
  · rcases hlb : List.lookup b.1 newU with _ | nb
    · rw [hlb] at hq; simp at hq
    · rw [hla] at hp
      rw [hlb] at hq
      simp only [Option.some.injEq] at hp hq
      have h1 : p.1 = a.2 := by rw [← hp]
      have h2 : q.1 = b.2 := by rw [← hq]
      rw [h1, h2]
      exact hab

theorem insertByOldIdx_of_lt {x : Nat × Nat} : ∀ {l : List (Nat × Nat)},
    (∀ y ∈ l, x.1 < y.1) → insertByOldIdx x l = x :: l
  | [], _ => rfl
  | y :: ys, h => by
    rw [insertByOldIdx, if_pos (Nat.le_of_lt (h y (List.mem_cons_self _ _)))]

theorem sortByOldIdx_of_pairwise : ∀ {l : List (Nat × Nat)},
    List.Pairwise (fun a b => a.1 < b.1) l → sortByOldIdx l = l
  | [], _ => rfl
  | x :: xs, h => by
    obtain ⟨hx, hxs⟩ := List.pairwise_cons.mp h
    show insertByOldIdx x (xs.foldr insertByOldIdx []) = x :: xs
    rw [show xs.foldr insertByOldIdx [] = sortByOldIdx xs from rfl,
      sortByOldIdx_of_pairwise hxs]
    exact insertByOldIdx_of_lt hx

theorem map_snd_getD {l : List (Nat × Nat)} {i : Nat} (h : i < l.length) :
    (l.map Prod.snd).getD i 0 = (l.getD i (0, 0)).2 := by
  rw [List.getD_eq_getElem _ _ (by simpa using h), List.getD_eq_getElem _ _ h,
    List.getElem_map]

theorem findAnchors_mem {oldU newU : List (String × Nat)}
    (hpw : List.Pairwise (fun a b => a.2 < b.2) oldU) {q : Nat × Nat}
    (h : q ∈ findAnchors oldU newU) : q ∈ commonUniques oldU newU := by
  rw [findAnchors] at h
  split at h
  · simp at h
  · rw [sortByOldIdx_of_pairwise (pairwise_commonUniques hpw)] at h
    rcases List.mem_map.mp h with ⟨i, hi, rfl⟩
    have hlt := lis_mem_lt i hi
    rw [List.length_map] at hlt
    rw [List.getD_eq_getElem _ _ hlt]
    exact List.getElem_mem hlt

theorem findAnchors_pairwise {oldU newU : List (String × Nat)}
    (hpw : List.Pairwise (fun a b => a.2 < b.2) oldU) :
    List.Pairwise (fun a b : Nat × Nat => a.1 < b.1 ∧ a.2 < b.2) (findAnchors oldU newU) := by
  rw [findAnchors]
  split
  · simp
  · rw [sortByOldIdx_of_pairwise (pairwise_commonUniques hpw)]
    rw [List.pairwise_map]
    have hcu : List.Pairwise (fun a b : Nat × Nat => a.1 < b.1)
        (commonUniques oldU newU) := pairwise_commonUniques hpw
    refine List.Pairwise.imp_of_mem ?_ (lis_pairwise)
    intro a b ha hb hab
    obtain ⟨hlt, hnums⟩ := hab
    have hal := lis_mem_lt a ha
    have hbl := lis_mem_lt b hb
    rw [List.length_map] at hal hbl
    constructor
    · have := List.pairwise_iff_getElem.mp hcu a b hal hbl hlt
      rwa [List.getD_eq_getElem _ _ hal, List.getD_eq_getElem _ _ hbl]
    · rwa [map_snd_getD hal, map_snd_getD hbl] at hnums

theorem findAnchors_uniques_mem {oldLines newLines : List String}
    {oldStart oldEnd newStart newEnd : Nat} {q : Nat × Nat}
    (h : q ∈ findAnchors (findUniqueLineIndices oldLines oldStart oldEnd)
      (findUniqueLineIndices newLines newStart newEnd)) :
    oldStart ≤ q.1 ∧ q.1 < oldEnd ∧ newStart ≤ q.2 ∧ q.2 < newEnd ∧
      oldLines.getD q.1 "" = newLines.getD q.2 "" := by
  have hcu := findAnchors_mem (pairwise_findUniqueLineIndices oldLines oldStart oldEnd) h
  obtain ⟨a, hold, hlook⟩ := mem_commonUniques hcu
  have h1 := mem_findUniqueLineIndices hold
  have h2 := mem_findUniqueLineIndices (lookup_mem hlook)
  simp only at h1 h2
  obtain ⟨h11, h12, h13, _⟩ := h1
  obtain ⟨h21, h22, h23, _⟩ := h2
  exact ⟨h11, h12, h21, h22, by rw [h13, h23]⟩

theorem anchorsWithin_of_facts {oldEnd newEnd : Nat} :
    ∀ (anchors : List (Nat × Nat)) (lo ln : Nat),
      (∀ q ∈ anchors, lo ≤ q.1 ∧ q.1 < oldEnd ∧ ln ≤ q.2 ∧ q.2 < newEnd) →
      List.Pairwise (fun a b : Nat × Nat => a.1 < b.1 ∧ a.2 < b.2) anchors →
      anchorsWithin oldEnd newEnd lo ln anchors
  | [], _, _, _, _ => True.intro
  | (oi, ni) :: rest, lo, ln, hmem, hpw => by
    obtain ⟨hx, hrest⟩ := List.pairwise_cons.mp hpw
    obtain ⟨e1, e2, e3, e4⟩ := hmem (oi, ni) (List.mem_cons_self _ _)
    refine ⟨e1, e2, e3, e4, ?_⟩
    apply anchorsWithin_of_facts rest (oi + 1) (ni + 1) ?_ hrest
    intro q hq
    obtain ⟨f1, f2, f3, f4⟩ := hmem q (List.mem_cons_of_mem _ hq)
    obtain ⟨g1, g2⟩ := hx q hq
    exact ⟨by omega, f2, by omega, f4⟩

theorem patience_anchors_valid (oldLines newLines : List String)
    (oldStart oldEnd newStart newEnd : Nat) :
    anchorsWithin oldEnd newEnd oldStart newStart
      (findAnchors (findUniqueLineIndices oldLines oldStart oldEnd)
        (findUniqueLineIndices newLines newStart newEnd)) := by
  apply anchorsWithin_of_facts _ _ _ ?_
    (findAnchors_pairwise (pairwise_findUniqueLineIndices oldLines oldStart oldEnd))
  intro q hq
  have := findAnchors_uniques_mem hq
  exact ⟨this.1, this.2.1, this.2.2.1, this.2.2.2.1⟩

theorem anchorSegments_bounds {oldEnd newEnd : Nat} :
    ∀ (anchors : List (Nat × Nat)) (lo ln : Nat),
      anchorsWithin oldEnd newEnd lo ln anchors →
      ∀ seg ∈ anchorSegments lo ln anchors,
        lo ≤ seg.1 ∧ seg.1 ≤ seg.2.1 ∧ seg.2.1 < oldEnd ∧
        ln ≤ seg.2.2.1 ∧ seg.2.2.1 ≤ seg.2.2.2 ∧ seg.2.2.2 < newEnd
  | [], _, _, _ => by
    intro seg hseg
    simp [anchorSegments] at hseg
  | (oi, ni) :: rest, lo, ln, hval => by
    obtain ⟨e1, e2, e3, e4, hrest⟩ := hval
    intro seg hseg
    rw [anchorSegments] at hseg
    rcases List.mem_cons.mp hseg with rfl | h
    · exact ⟨Nat.le_refl lo, e1, e2, Nat.le_refl ln, e3, e4⟩
    · obtain ⟨f1, f2, f3, f4, f5, f6⟩ := anchorSegments_bounds rest (oi + 1) (ni + 1) hrest seg h
      exact ⟨by omega, f2, f3, by omega, f5, f6⟩

theorem lastBounds_facts {oldEnd newEnd : Nat} :
    ∀ (anchors : List (Nat × Nat)) (lo ln : Nat),
      anchorsWithin oldEnd newEnd lo ln anchors → anchors ≠ [] →
      lo < (lastBounds lo ln anchors).1 ∧ (lastBounds lo ln anchors).1 ≤ oldEnd ∧
      ln < (lastBounds lo ln anchors).2 ∧ (lastBounds lo ln anchors).2 ≤ newEnd
  | [], _, _, _, hne => absurd rfl hne
  | (oi, ni) :: rest, lo, ln, hval, _ => by
    obtain ⟨e1, e2, e3, e4, hrest⟩ := hval
    rw [lastBounds]
    match rest, hrest with
    | [], _ =>
      rw [lastBounds]
      exact ⟨by omega, by omega, by omega, by omega⟩
    | r :: rest', hrest =>
      obtain ⟨f1, f2, f3, f4⟩ :=
        lastBounds_facts (r :: rest') (oi + 1) (ni + 1) hrest (by simp)
      exact ⟨by omega, f2, by omega, f4⟩

theorem anchorSegments_measure {oldStart oldEnd newStart newEnd : Nat}
    (ho : oldStart < oldEnd) (hn : newStart < newEnd) {anchors : List (Nat × Nat)}
    (hval : anchorsWithin oldEnd newEnd oldStart newStart anchors) :
    ∀ seg ∈ anchorSegments oldStart newStart anchors,
      (seg.2.1 - seg.1) + (seg.2.2.2 - seg.2.2.1)
        < (oldEnd - oldStart) + (newEnd - newStart) := by
  intro seg hseg
  obtain ⟨f1, f2, f3, f4, f5, f6⟩ := anchorSegments_bounds anchors oldStart newStart hval seg hseg
  omega

theorem lastBounds_measure {oldStart oldEnd newStart newEnd : Nat}
    (ho : oldStart < oldEnd) (hn : newStart < newEnd) {anchors : List (Nat × Nat)}
    (hval : anchorsWithin oldEnd newEnd oldStart newStart anchors) (hne : anchors ≠ []) :
    (oldEnd - (lastBounds oldStart newStart anchors).1)
      + (newEnd - (lastBounds oldStart newStart anchors).2)
      < (oldEnd - oldStart) + (newEnd - newStart) := by
  obtain ⟨f1, f2, f3, f4⟩ := lastBounds_facts anchors oldStart newStart hval hne
  omega

/-! ### Stitching segment results along the anchor chain -/

theorem stitch_old {oldLines : List String} {oldEnd newEnd : Nat}
    (hoe : oldEnd ≤ oldLines.length) (F : Nat × Nat × Nat × Nat → List String) :
    ∀ (anchors : List (Nat × Nat)) (lo ln : Nat),
      anchorsWithin oldEnd newEnd lo ln anchors →
      (∀ seg ∈ anchorSegments lo ln anchors, F seg = slice oldLines seg.1 seg.2.1) →
      ((anchorSegments lo ln anchors).map fun seg =>
        F seg ++ [oldLines.getD seg.2.1 ""]).flatten
        ++ slice oldLines (lastBounds lo ln anchors).1 oldEnd
        = slice oldLines lo oldEnd
  | [], lo, ln, _, _ => by simp [anchorSegments, lastBounds]
  | (oi, ni) :: rest, lo, ln, hval, hF => by
    obtain ⟨e1, e2, e3, e4, hrest⟩ := hval
    rw [anchorSegments, lastBounds, List.map_cons, List.flatten_cons]
    have hhead : F (lo, oi, ln, ni) = slice oldLines lo oi :=
      hF (lo, oi, ln, ni) (by rw [anchorSegments]; exact List.mem_cons_self _ _)
    have htail := stitch_old hoe F rest (oi + 1) (ni + 1) hrest
      (fun seg hseg => hF seg (by rw [anchorSegments]; exact List.mem_cons_of_mem _ hseg))
    rw [List.append_assoc, htail, hhead]
    rw [show [oldLines.getD oi ""] = slice oldLines oi (oi + 1) from
      (slice_singleton (by omega)).symm]
    rw [List.append_assoc,
      slice_append (show oi ≤ oi + 1 by omega) (show oi + 1 ≤ oldEnd by omega),
      slice_append (show lo ≤ oi by omega) (show oi ≤ oldEnd by omega)]

theorem stitch_new {oldLines newLines : List String} {oldEnd newEnd : Nat}
    (hnew : newEnd ≤ newLines.length) (F : Nat × Nat × Nat × Nat → List String) :
    ∀ (anchors : List (Nat × Nat)) (lo ln : Nat),
      anchorsWithin oldEnd newEnd lo ln anchors →
      (∀ q ∈ anchors, oldLines.getD q.1 "" = newLines.getD q.2 "") →
      (∀ seg ∈ anchorSegments lo ln anchors, F seg = slice newLines seg.2.2.1 seg.2.2.2) →
      ((anchorSegments lo ln anchors).map fun seg =>
        F seg ++ [oldLines.getD seg.2.1 ""]).flatten
        ++ slice newLines (lastBounds lo ln anchors).2 newEnd
        = slice newLines ln newEnd
  | [], lo, ln, _, _, _ => by simp [anchorSegments, lastBounds]
  | (oi, ni) :: rest, lo, ln, hval, hmatch, hF => by
    obtain ⟨e1, e2, e3, e4, hrest⟩ := hval
    rw [anchorSegments, lastBounds, List.map_cons, List.flatten_cons]
    have hhead : F (lo, oi, ln, ni) = slice newLines ln ni :=
      hF (lo, oi, ln, ni) (by rw [anchorSegments]; exact List.mem_cons_self _ _)
    have htail := stitch_new hnew F rest (oi + 1) (ni + 1) hrest
      (fun q hq => hmatch q (List.mem_cons_of_mem _ hq))
      (fun seg hseg => hF seg (by rw [anchorSegments]; exact List.mem_cons_of_mem _ hseg))
    rw [List.append_assoc, htail, hhead]
    have hm := hmatch (oi, ni) (List.mem_cons_self _ _)
    rw [show [oldLines.getD oi ""] = slice newLines ni (ni + 1) by
      rw [hm]
      exact (slice_singleton (by omega)).symm]
    rw [List.append_assoc,
      slice_append (show ni ≤ ni + 1 by omega) (show ni + 1 ≤ newEnd by omega),
      slice_append (show ln ≤ ni by omega) (show ni ≤ newEnd by omega)]

/-! ### Coverage of the aligner -/

theorem patienceDiffRec_sides :
    ∀ (fuel : Nat) (oldLines : List String) (oldStart oldEnd : Nat)
      (newLines : List String) (newStart newEnd : Nat),
      (oldEnd - oldStart) + (newEnd - newStart) ≤ fuel →
      oldEnd ≤ oldLines.length → newEnd ≤ newLines.length →
      sideLines (fun a _ => !a)
        (patienceDiffRec fuel oldLines oldStart oldEnd newLines newStart newEnd)
        = slice oldLines oldStart oldEnd ∧
      sideLines (fun a r => a || !r)
        (patienceDiffRec fuel oldLines oldStart oldEnd newLines newStart newEnd)
        = slice newLines newStart newEnd
  | 0, oldLines, oldStart, oldEnd, newLines, newStart, newEnd => by
    intro hm hoe hne
    rw [patienceDiffRec, slice_eq_nil (show oldEnd ≤ oldStart by omega),
      slice_eq_nil (show newEnd ≤ newStart by omega)]
    exact ⟨rfl, rfl⟩
  | fuel + 1, oldLines, oldStart, oldEnd, newLines, newStart, newEnd => by
    intro hm hoe hne
    simp only [patienceDiffRec]
    by_cases c1 : oldEnd ≤ oldStart ∧ newEnd ≤ newStart
    · rw [if_pos c1, slice_eq_nil c1.1, slice_eq_nil c1.2]
      exact ⟨rfl, rfl⟩
    rw [if_neg c1]
    by_cases c2 : oldEnd ≤ oldStart
    · rw [if_pos c2]
      constructor
      · rw [sideLines_singleton, slice_eq_nil c2]
        simp
      · rw [sideLines_singleton]
        simp
    rw [if_neg c2]
    by_cases c3 : newEnd ≤ newStart
    · rw [if_pos c3]
      constructor
      · rw [sideLines_singleton]
        simp
      · rw [sideLines_singleton, slice_eq_nil c3]
        simp
    rw [if_neg c3]
    set anchors := findAnchors (findUniqueLineIndices oldLines oldStart oldEnd)
      (findUniqueLineIndices newLines newStart newEnd) with hanch
    by_cases hemp : anchors.isEmpty = true
    · rw [if_pos hemp]
      exact ⟨positionalDiff_oldSide oldLines oldStart oldEnd newLines newStart newEnd,
        positionalDiff_newSide oldLines oldStart oldEnd newLines newStart newEnd hoe hne⟩
    rw [if_neg hemp]
    have hanne : anchors ≠ [] := by
      intro h
      rw [h] at hemp
      simp at hemp
    have hval : anchorsWithin oldEnd newEnd oldStart newStart anchors := by
      rw [hanch]
      exact patience_anchors_valid oldLines newLines oldStart oldEnd newStart newEnd
    have hmatch : ∀ q ∈ anchors, oldLines.getD q.1 "" = newLines.getD q.2 "" := by
      intro q hq
      rw [hanch] at hq
      exact (findAnchors_uniques_mem hq).2.2.2.2
    have hseg : ∀ seg ∈ anchorSegments oldStart newStart anchors,
        sideLines (fun a _ => !a)
          (patienceDiffRec fuel oldLines seg.1 seg.2.1 newLines seg.2.2.1 seg.2.2.2)
          = slice oldLines seg.1 seg.2.1 ∧
        sideLines (fun a r => a || !r)
          (patienceDiffRec fuel oldLines seg.1 seg.2.1 newLines seg.2.2.1 seg.2.2.2)
          = slice newLines seg.2.2.1 seg.2.2.2 := by
      intro seg hseg
      have hmeas := anchorSegments_measure (by omega) (by omega) hval seg hseg
      have hbd := anchorSegments_bounds anchors oldStart newStart hval seg hseg
      exact patienceDiffRec_sides fuel oldLines seg.1 seg.2.1 newLines seg.2.2.1 seg.2.2.2
        (by omega) (by omega) (by omega)
    have hafter := patienceDiffRec_sides fuel oldLines
      (lastBounds oldStart newStart anchors).1 oldEnd newLines
      (lastBounds oldStart newStart anchors).2 newEnd
      (by
        have := lastBounds_measure (show oldStart < oldEnd by omega)
          (show newStart < newEnd by omega) hval hanne
        omega)
      hoe hne
    constructor
    · rw [mergeConsecutiveChanges_sideLines, sideLines_append, sideLines_flatten,
        List.map_map]
      have hmapeq : ((anchorSegments oldStart newStart anchors).map
          (sideLines (fun a _ => !a) ∘ fun seg =>
            patienceDiffRec fuel oldLines seg.1 seg.2.1 newLines seg.2.2.1 seg.2.2.2
              ++ [{ value := [oldLines.getD seg.2.1 ""] }]))
          = ((anchorSegments oldStart newStart anchors).map fun seg =>
            sideLines (fun a _ => !a)
              (patienceDiffRec fuel oldLines seg.1 seg.2.1 newLines seg.2.2.1 seg.2.2.2)
              ++ [oldLines.getD seg.2.1 ""]) := by
        apply List.map_congr_left
        intro seg _
        simp only [Function.comp_apply]
        rw [sideLines_append, sideLines_singleton]
        simp
      rw [hmapeq, hafter.1]
      exact stitch_old hoe _ anchors oldStart newStart hval
        (fun seg hs => (hseg seg hs).1)
    · rw [mergeConsecutiveChanges_sideLines, sideLines_append, sideLines_flatten,
        List.map_map]
      have hmapeq : ((anchorSegments oldStart newStart anchors).map
          (sideLines (fun a r => a || !r) ∘ fun seg =>
            patienceDiffRec fuel oldLines seg.1 seg.2.1 newLines seg.2.2.1 seg.2.2.2
              ++ [{ value := [oldLines.getD seg.2.1 ""] }]))
          = ((anchorSegments oldStart newStart anchors).map fun seg =>
            sideLines (fun a r => a || !r)
              (patienceDiffRec fuel oldLines seg.1 seg.2.1 newLines seg.2.2.1 seg.2.2.2)
              ++ [oldLines.getD seg.2.1 ""]) := by
        apply List.map_congr_left
        intro seg _
        simp only [Function.comp_apply]
        rw [sideLines_append, sideLines_singleton]
        simp
      rw [hmapeq, hafter.2]
      exact stitch_new hne _ anchors oldStart newStart hval hmatch
        (fun seg hs => (hseg seg hs).2)

theorem patienceDiffRec_wellformed :
    ∀ (fuel : Nat) (oldLines : List String) (oldStart oldEnd : Nat)
      (newLines : List String) (newStart newEnd : Nat),
      ∀ r ∈ patienceDiffRec fuel oldLines oldStart oldEnd newLines newStart newEnd,
        wellformedRun r
  | 0, oldLines, oldStart, oldEnd, newLines, newStart, newEnd => by
    intro r hr
    rw [patienceDiffRec] at hr
    simp at hr
  | fuel + 1, oldLines, oldStart, oldEnd, newLines, newStart, newEnd => by
    intro r hr
    simp only [patienceDiffRec] at hr
    split_ifs at hr
    · simp at hr
    · simp at hr
      subst hr
      simp [wellformedRun]
    · simp at hr
      subst hr
      simp [wellformedRun]
    · exact positionalDiff_wellformed oldLines oldStart oldEnd newLines newStart newEnd r hr
    · refine mem_mergeConsecutiveChanges (fun a b => ¬(a = true ∧ b = true)) ?_ r hr
      intro x hx
      rcases List.mem_append.mp hx with h | h
      · rcases List.mem_flatten.mp h with ⟨piece, hpiece, hxp⟩
        rcases List.mem_map.mp hpiece with ⟨seg, _, rfl⟩
        rcases List.mem_append.mp hxp with h2 | h2
        · exact patienceDiffRec_wellformed fuel oldLines seg.1 seg.2.1
            newLines seg.2.2.1 seg.2.2.2 x h2
        · simp at h2
          subst h2
          simp
      · exact patienceDiffRec_wellformed fuel oldLines _ oldEnd newLines _ newEnd x h

theorem chain'_kind_of_flagsDiffer : ∀ {l : List Run},
    (∀ r ∈ l, wellformedRun r) → List.Chain' flagsDiffer l →
    List.Chain' (fun a b : Run => a.kind ≠ b.kind) l
  | [], _, _ => List.chain'_nil
  | [_], _, _ => by simp
  | r1 :: r2 :: t, hwf, hch => by
    rw [List.chain'_cons] at hch ⊢
    refine ⟨?_, chain'_kind_of_flagsDiffer
      (fun r hr => hwf r (List.mem_cons_of_mem _ hr)) hch.2⟩
    have w1 := hwf r1 (by simp)
    have w2 := hwf r2 (by simp)
    have hd := hch.1
    unfold wellformedRun at w1 w2
    unfold flagsDiffer at hd
    unfold Run.kind
    cases h1 : r1.added <;> cases h2 : r1.removed <;> cases h3 : r2.added <;>
      cases h4 : r2.removed <;> simp_all

theorem patienceDiffRec_chain'
    (fuel : Nat) (oldLines : List String) (oldStart oldEnd : Nat)
    (newLines : List String) (newStart newEnd : Nat) :
    List.Chain' (fun a b : Run => a.kind ≠ b.kind)
      (patienceDiffRec fuel oldLines oldStart oldEnd newLines newStart newEnd) := by
  match fuel with
  | 0 =>
    rw [patienceDiffRec]
    simp
  | fuel + 1 =>
    simp only [patienceDiffRec]
    split_ifs with c1 c2 c3 hemp
    · simp
    · simp
    · simp
    · exact positionalDiff_chain' oldLines oldStart oldEnd newLines newStart newEnd
    · apply chain'_kind_of_flagsDiffer
      · intro r hr
        have := patienceDiffRec_wellformed (fuel + 1)
          oldLines oldStart oldEnd newLines newStart newEnd r
        apply this
        simp only [patienceDiffRec]
        rw [if_neg c1, if_neg c2, if_neg c3, if_neg hemp]
        exact hr
      · exact chain'_mergeConsecutiveChanges _

/-- C1: concatenating in order the line lists of all runs returned by the
aligner, keeping only runs that are not `inserted`, yields exactly the old
line sequence, and keeping only runs that are not `deleted` yields exactly
the new line sequence. -/
theorem patienceDiff_coverage (oldLines newLines : List String) :
    oldReconstruction (patienceDiff oldLines newLines) = oldLines ∧
    newReconstruction (patienceDiff oldLines newLines) = newLines := by
  have h := patienceDiffRec_sides (oldLines.length + newLines.length)
    oldLines 0 oldLines.length newLines 0 newLines.length
    (by omega) (Nat.le_refl _) (Nat.le_refl _)
  rw [slice_full, slice_full] at h
  rw [oldReconstruction_eq_sideLines, newReconstruction_eq_sideLines, patienceDiff]
  exact h

/-- C3: the run list returned by the aligner never contains two consecutive
runs of the same kind. -/
theorem patienceDiff_no_adjacent_same_kind (oldLines newLines : List String) :
    List.Chain' (fun a b : Run => a.kind ≠ b.kind) (patienceDiff oldLines newLines) := by
  rw [patienceDiff]
  exact patienceDiffRec_chain' _ oldLines 0 oldLines.length newLines 0 newLines.length

/-! ### The aligner on identical inputs -/

theorem mergeStep_single_equal {v : List String} (hv : v ≠ []) :
    ∀ {l : List Run}, (∀ r ∈ l, r.added = false ∧ r.removed = false) →
      l.foldl mergeStep [{ value := v }]
        = [{ value := v ++ (l.map Run.value).flatten }]
  | [], _ => by simp
  | c :: t, h => by
    obtain ⟨hca, hcr⟩ := h c (by simp)
    rw [List.foldl_cons]
    by_cases hcv : c.value = []
    · rw [show mergeStep [{ value := v }] c = [{ value := v }] from by
        rw [mergeStep, if_pos hcv]]
      rw [mergeStep_single_equal hv (fun r hr => h r (List.mem_cons_of_mem _ hr))]
      simp [hcv]
    · rw [show mergeStep [{ value := v }] c = [{ value := v ++ c.value }] from by
        rw [mergeStep, if_neg hcv]
        simp [hca, hcr]]
      rw [mergeStep_single_equal (by simp [hv]) (fun r hr => h r (List.mem_cons_of_mem _ hr))]
      simp

theorem merge_all_equal : ∀ {l : List Run},
    (∀ r ∈ l, r.added = false ∧ r.removed = false) →
    mergeConsecutiveChanges l
      = if (l.map Run.value).flatten = [] then []
        else [{ value := (l.map Run.value).flatten }]
  | [], _ => by simp [mergeConsecutiveChanges]
  | c :: t, h => by
    obtain ⟨hca, hcr⟩ := h c (by simp)
    rw [mergeConsecutiveChanges, List.foldl_cons]
    by_cases hcv : c.value = []
    · rw [show mergeStep [] c = [] from by rw [mergeStep, if_pos hcv]]
      have := merge_all_equal (fun r hr => h r (List.mem_cons_of_mem _ hr))
      rw [mergeConsecutiveChanges] at this
      rw [this]
      simp [hcv]
    · rw [show mergeStep [] c = [{ value := c.value, added := c.added, removed := c.removed }]
        from by rw [mergeStep, if_neg hcv]]
      rw [hca, hcr]
      rw [mergeStep_single_equal hcv (fun r hr => h r (List.mem_cons_of_mem _ hr))]
      have hne : c.value ++ (t.map Run.value).flatten ≠ [] := by simp [hcv]
      rw [List.map_cons, List.flatten_cons, if_neg hne]
      rfl

theorem leadingCount_self (lines : List String) :
    ∀ (b s : Nat), leadingCount lines lines s s b = b
  | 0, _ => rfl
  | b + 1, s => by
    rw [leadingCount, if_pos rfl, leadingCount_self lines b (s + 1)]

theorem positionalDiff_self (lines : List String) (s e : Nat) (hse : s < e) :
    positionalDiff lines s e lines s e = [{ value := slice lines s e }] := by
  simp only [positionalDiff]
  rw [if_neg (by omega), if_neg (by omega), if_neg (by omega), if_neg (by omega),
    if_neg (by omega), if_neg (by omega)]
  have hmin : min (e - s) (e - s) = e - s := Nat.min_self _
  rw [hmin, leadingCount_self lines (e - s) s]
  have hT : trailingCount lines lines e e (e - s - (e - s)) = 0 := by
    rw [Nat.sub_self]
    rfl
  rw [hT]
  rw [if_pos (by omega), if_neg (by omega), if_neg (by omega), if_neg (by omega)]
  rw [show s + (e - s) = e by omega]
  simp

theorem anchorSegments_diag : ∀ (anchors : List (Nat × Nat)) (lo : Nat),
    (∀ q ∈ anchors, q.1 = q.2) →
    (∀ seg ∈ anchorSegments lo lo anchors, seg.1 = seg.2.2.1 ∧ seg.2.1 = seg.2.2.2) ∧
    (lastBounds lo lo anchors).1 = (lastBounds lo lo anchors).2
  | [], lo, _ => by
    constructor
    · intro seg hseg
      simp [anchorSegments] at hseg
    · rfl
  | (oi, ni) :: rest, lo, hdiag => by
    have hhead : oi = ni := hdiag (oi, ni) (List.mem_cons_self _ _)
    subst hhead
    obtain ⟨ihseg, ihlast⟩ := anchorSegments_diag rest (oi + 1)
      (fun q hq => hdiag q (List.mem_cons_of_mem _ hq))
    constructor
    · intro seg hseg
      rw [anchorSegments] at hseg
      rcases List.mem_cons.mp hseg with rfl | h
      · exact ⟨rfl, rfl⟩
      · exact ihseg seg h
    · rw [lastBounds]
      exact ihlast

theorem findAnchors_self_diag {lines : List String} {s e : Nat} (hle : e ≤ lines.length) :
    ∀ q ∈ findAnchors (findUniqueLineIndices lines s e) (findUniqueLineIndices lines s e),
      q.1 = q.2 := by
  intro q hq
  have hcu := findAnchors_mem (pairwise_findUniqueLineIndices lines s e) hq
  obtain ⟨a, hold, hlook⟩ := mem_commonUniques hcu
  exact findUniqueLineIndices_key_inj hle hold (lookup_mem hlook)

theorem patienceDiffRec_self :
    ∀ (fuel : Nat) (lines : List String) (s e : Nat),
      (e - s) + (e - s) ≤ fuel → e ≤ lines.length →
      patienceDiffRec fuel lines s e lines s e
        = if s < e then [{ value := slice lines s e }] else []
  | 0, lines, s, e => by
    intro hm hle
    rw [patienceDiffRec, if_neg (by omega)]
  | fuel + 1, lines, s, e => by
    intro hm hle
    by_cases hse : s < e
    · rw [if_pos hse]
      simp only [patienceDiffRec]
      rw [if_neg (by omega), if_neg (by omega), if_neg (by omega)]
      set anchors := findAnchors (findUniqueLineIndices lines s e)
        (findUniqueLineIndices lines s e) with hanch
      by_cases hemp : anchors.isEmpty = true
      · rw [if_pos hemp]
        exact positionalDiff_self lines s e hse
      rw [if_neg hemp]
      have hval : anchorsWithin e e s s anchors := by
        rw [hanch]
        exact patience_anchors_valid lines lines s e s e
      have hdiag : ∀ q ∈ anchors, q.1 = q.2 := by
        rw [hanch]
        exact findAnchors_self_diag hle
      obtain ⟨hsegdiag, hlastdiag⟩ := anchorSegments_diag anchors s hdiag
      -- every run in the body is an equal run
      have hbodyflags : ∀ r ∈ ((anchorSegments s s anchors).map fun seg =>
          patienceDiffRec fuel lines seg.1 seg.2.1 lines seg.2.2.1 seg.2.2.2
            ++ [{ value := [lines.getD seg.2.1 ""] }]).flatten
          ++ patienceDiffRec fuel lines (lastBounds s s anchors).1 e lines
            (lastBounds s s anchors).2 e,
          r.added = false ∧ r.removed = false := by
        intro r hr
        rcases List.mem_append.mp hr with h | h
        · rcases List.mem_flatten.mp h with ⟨piece, hpiece, hrp⟩
          rcases List.mem_map.mp hpiece with ⟨seg, hseg, rfl⟩
          obtain ⟨hd1, hd2⟩ := hsegdiag seg hseg
          have hmeas := anchorSegments_measure (by omega) (by omega) hval seg hseg
          have hbd := anchorSegments_bounds anchors s s hval seg hseg
          rcases List.mem_append.mp hrp with h2 | h2
          · rw [← hd1, ← hd2] at h2
            rw [patienceDiffRec_self fuel lines seg.1 seg.2.1 (by omega) (by omega)] at h2
            split at h2
            · simp at h2
              subst h2
              exact ⟨rfl, rfl⟩
            · simp at h2
          · simp at h2
            subst h2
            exact ⟨rfl, rfl⟩
        · rw [← hlastdiag] at h
          have hlb := lastBounds_facts anchors s s hval (by
            intro hnil
            rw [hnil] at hemp
            simp at hemp)
          rw [patienceDiffRec_self fuel lines (lastBounds s s anchors).1 e
            (by omega) hle] at h
          split at h
          · simp at h
            subst h
            exact ⟨rfl, rfl⟩
          · simp at h
      rw [merge_all_equal hbodyflags]
      -- the concatenated values stitch to the whole slice
      have hvalues : ((((anchorSegments s s anchors).map
          fun (seg : Nat × Nat × Nat × Nat) =>
          patienceDiffRec fuel lines seg.1 seg.2.1 lines seg.2.2.1 seg.2.2.2
            ++ [({ value := [lines.getD seg.2.1 ""] } : Run)]).flatten
          ++ patienceDiffRec fuel lines (lastBounds s s anchors).1 e lines
            (lastBounds s s anchors).2 e).map Run.value).flatten
          = slice lines s e := by
        have hTrue : ∀ (l : List Run),
            sideLines (fun _ _ => true) l = (l.map Run.value).flatten := by
          intro l
          rw [sideLines]
          congr 1
          congr 1
          simp
        rw [← hTrue, sideLines_append, sideLines_flatten, List.map_map]
        have hmapeq : ((anchorSegments s s anchors).map
            (sideLines (fun _ _ => true) ∘ fun seg =>
              patienceDiffRec fuel lines seg.1 seg.2.1 lines seg.2.2.1 seg.2.2.2
                ++ [{ value := [lines.getD seg.2.1 ""] }]))
            = ((anchorSegments s s anchors).map fun seg =>
              slice lines seg.1 seg.2.1 ++ [lines.getD seg.2.1 ""]) := by
          apply List.map_congr_left
          intro seg hseg
          obtain ⟨hd1, hd2⟩ := hsegdiag seg hseg
          have hmeas := anchorSegments_measure (by omega) (by omega) hval seg hseg
          have hbd := anchorSegments_bounds anchors s s hval seg hseg
          simp only [Function.comp_apply]
          rw [sideLines_append, sideLines_singleton]
          rw [← hd1, ← hd2]
          rw [patienceDiffRec_self fuel lines seg.1 seg.2.1 (by omega) (by omega)]
          split
          · rw [sideLines_singleton]
            simp
          · next hc =>
            rw [sideLines_nil, slice_eq_nil (by omega)]
            simp
        rw [hmapeq]
        rw [← hlastdiag]
        have hlb := lastBounds_facts anchors s s hval (by
          intro hnil
          rw [hnil] at hemp
          simp at hemp)
        rw [patienceDiffRec_self fuel lines (lastBounds s s anchors).1 e (by omega) hle]
        have hafter : sideLines (fun _ _ => true)
            (if (lastBounds s s anchors).1 < e
              then [{ value := slice lines (lastBounds s s anchors).1 e : Run }] else [])
            = slice lines (lastBounds s s anchors).1 e := by
          split
          · rw [sideLines_singleton]
            simp
          · next hc =>
            rw [sideLines_nil, slice_eq_nil (by omega)]
        rw [hafter]
        exact stitch_old hle (fun seg => slice lines seg.1 seg.2.1) anchors s s hval
          (fun seg _ => rfl)
      rw [hvalues]
      rw [if_neg (by
        intro hnil
        have := slice_length_of_le (show s ≤ e by omega) hle
        rw [hnil] at this
        simp at this
        omega)]
    · rw [if_neg hse]
      simp only [patienceDiffRec]
      rw [if_pos ⟨by omega, by omega⟩]

/-- C4: aligning a non-empty sequence against itself returns exactly one
`equal` run whose line list is all of the sequence; no `inserted` and no
`deleted` run appears. -/
theorem patienceDiff_self (X : List String) (hne : X ≠ []) :
    patienceDiff X X = [{ value := X }] := by
  rw [patienceDiff, patienceDiffRec_self (X.length + X.length) X 0 X.length
    (by omega) (Nat.le_refl _)]
  rw [if_pos (by cases X with | nil => exact absurd rfl hne | cons a t => simp)]
  rw [slice_full]

/-- Witness for C4 at `X = ["a", "b"]`. -/
theorem patienceDiff_self_witness :
    (["a", "b"] : List String) ≠ [] ∧
      patienceDiff ["a", "b"] ["a", "b"] = [{ value := ["a", "b"] }] :=
  ⟨by decide, patienceDiff_self ["a", "b"] (by decide)⟩

/-! ### Fuel stability: the termination argument of `patienceDiffRecursive` -/

theorem patienceDiffRec_fuel_stable :
    ∀ (n f1 f2 : Nat) (oldLines : List String) (oldStart oldEnd : Nat)
      (newLines : List String) (newStart newEnd : Nat),
      (oldEnd - oldStart) + (newEnd - newStart) = n → n ≤ f1 → n ≤ f2 →
      patienceDiffRec f1 oldLines oldStart oldEnd newLines newStart newEnd
        = patienceDiffRec f2 oldLines oldStart oldEnd newLines newStart newEnd := by
  intro n
  induction n using Nat.strong_induction_on with
  | _ n ih =>
    intro f1 f2 oldLines oldStart oldEnd newLines newStart newEnd hn h1 h2
    by_cases hz : n = 0
    · subst hz
      have hc : oldEnd ≤ oldStart ∧ newEnd ≤ newStart := by omega
      match f1, f2 with
      | 0, 0 => rfl
      | 0, f2 + 1 =>
        rw [patienceDiffRec, patienceDiffRec, if_pos hc]
      | f1 + 1, 0 =>
        rw [patienceDiffRec, patienceDiffRec, if_pos hc]
      | f1 + 1, f2 + 1 =>
        simp only [patienceDiffRec]
        rw [if_pos hc, if_pos hc]
    · match f1, f2 with
      | 0, _ => omega
      | _ + 1, 0 => omega
      | f1 + 1, f2 + 1 =>
        simp only [patienceDiffRec]
        by_cases c1 : oldEnd ≤ oldStart ∧ newEnd ≤ newStart
        · rw [if_pos c1, if_pos c1]
        rw [if_neg c1, if_neg c1]
        by_cases c2 : oldEnd ≤ oldStart
        · rw [if_pos c2, if_pos c2]
        rw [if_neg c2, if_neg c2]
        by_cases c3 : newEnd ≤ newStart
        · rw [if_pos c3, if_pos c3]
        rw [if_neg c3, if_neg c3]
        set anchors := findAnchors (findUniqueLineIndices oldLines oldStart oldEnd)
          (findUniqueLineIndices newLines newStart newEnd) with hanch
        by_cases hemp : anchors.isEmpty = true
        · rw [if_pos hemp, if_pos hemp]
        rw [if_neg hemp, if_neg hemp]
        have hanne : anchors ≠ [] := by
          intro h
          rw [h] at hemp
          simp at hemp
        have hval : anchorsWithin oldEnd newEnd oldStart newStart anchors := by
          rw [hanch]
          exact patience_anchors_valid oldLines newLines oldStart oldEnd newStart newEnd
        congr 1
        congr 1
        · congr 1
          apply List.map_congr_left
          intro seg hseg
          have hmeas := anchorSegments_measure (by omega) (by omega) hval seg hseg
          congr 1
          exact ih ((seg.2.1 - seg.1) + (seg.2.2.2 - seg.2.2.1)) (by omega) f1 f2
            oldLines seg.1 seg.2.1 newLines seg.2.2.1 seg.2.2.2 rfl (by omega) (by omega)
        · have hmeas := lastBounds_measure (show oldStart < oldEnd by omega)
            (show newStart < newEnd by omega) hval hanne
          exact ih ((oldEnd - (lastBounds oldStart newStart anchors).1)
              + (newEnd - (lastBounds oldStart newStart anchors).2)) (by omega) f1 f2
            oldLines (lastBounds oldStart newStart anchors).1 oldEnd
            newLines (lastBounds oldStart newStart anchors).2 newEnd rfl
            (by omega) (by omega)

/-- C10: termination of `patienceDiffRecursive`.  For non-empty ranges, every
anchor returned by `findAnchors` lies strictly inside the given ranges,
consecutive anchors strictly increase in both the old and the new index, every
recursive call (the range before each anchor, and the range after the last
anchor) operates on a strictly smaller combined range, and consequently the
result of the fuel-bounded embedding is independent of the fuel once the fuel
is at least the combined range size — the recursion is well founded. -/
theorem patienceDiffRecursive_terminates
    (oldLines newLines : List String) (oldStart oldEnd newStart newEnd : Nat)
    (ho : oldStart < oldEnd) (hn : newStart < newEnd) :
    (∀ q ∈ findAnchors (findUniqueLineIndices oldLines oldStart oldEnd)
        (findUniqueLineIndices newLines newStart newEnd),
      oldStart ≤ q.1 ∧ q.1 < oldEnd ∧ newStart ≤ q.2 ∧ q.2 < newEnd) ∧
    List.Pairwise (fun a b : Nat × Nat => a.1 < b.1 ∧ a.2 < b.2)
      (findAnchors (findUniqueLineIndices oldLines oldStart oldEnd)
        (findUniqueLineIndices newLines newStart newEnd)) ∧
    (∀ seg ∈ anchorSegments oldStart newStart
        (findAnchors (findUniqueLineIndices oldLines oldStart oldEnd)
          (findUniqueLineIndices newLines newStart newEnd)),
      (seg.2.1 - seg.1) + (seg.2.2.2 - seg.2.2.1)
        < (oldEnd - oldStart) + (newEnd - newStart)) ∧
    (findAnchors (findUniqueLineIndices oldLines oldStart oldEnd)
        (findUniqueLineIndices newLines newStart newEnd) ≠ [] →
      (oldEnd - (lastBounds oldStart newStart
          (findAnchors (findUniqueLineIndices oldLines oldStart oldEnd)
            (findUniqueLineIndices newLines newStart newEnd))).1)
        + (newEnd - (lastBounds oldStart newStart
          (findAnchors (findUniqueLineIndices oldLines oldStart oldEnd)
            (findUniqueLineIndices newLines newStart newEnd))).2)
        < (oldEnd - oldStart) + (newEnd - newStart)) ∧
    (∀ fuel, (oldEnd - oldStart) + (newEnd - newStart) ≤ fuel →
      patienceDiffRec fuel oldLines oldStart oldEnd newLines newStart newEnd
        = patienceDiffRec ((oldEnd - oldStart) + (newEnd - newStart))
            oldLines oldStart oldEnd newLines newStart newEnd) := by
  have hval := patience_anchors_valid oldLines newLines oldStart oldEnd newStart newEnd
  refine ⟨?_, ?_, ?_, ?_, ?_⟩
  · intro q hq
    have := findAnchors_uniques_mem hq
    exact ⟨this.1, this.2.1, this.2.2.1, this.2.2.2.1⟩
  · exact findAnchors_pairwise (pairwise_findUniqueLineIndices oldLines oldStart oldEnd)
  · exact anchorSegments_measure ho hn hval
  · exact fun hne => lastBounds_measure ho hn hval hne
  · intro fuel hfuel
    exact patienceDiffRec_fuel_stable ((oldEnd - oldStart) + (newEnd - newStart))
      fuel ((oldEnd - oldStart) + (newEnd - newStart))
      oldLines oldStart oldEnd newLines newStart newEnd rfl hfuel (Nat.le_refl _)

/-- Witness for C10 at old = ["1","2","3","4"], new = ["1","4"]. -/
theorem patienceDiffRecursive_terminates_witness :
    (0 : Nat) < 4 ∧ (0 : Nat) < 2 ∧
    ∀ q ∈ findAnchors (findUniqueLineIndices ["1", "2", "3", "4"] 0 4)
        (findUniqueLineIndices ["1", "4"] 0 2),
      0 ≤ q.1 ∧ q.1 < 4 ∧ 0 ≤ q.2 ∧ q.2 < 2 :=
  ⟨by decide, by decide,
    (patienceDiffRecursive_terminates ["1", "2", "3", "4"] ["1", "4"] 0 4 0 2
      (by decide) (by decide)).1⟩

/-! ### Builder lemmas -/

theorem append_eq_slice_split {l : List String} {s : Nat} {a b : List String}
    (h : a ++ b = slice l s l.length) (hs : s ≤ l.length) :
    a = slice l s (s + a.length) ∧ b = slice l (s + a.length) l.length ∧
      s + a.length ≤ l.length := by
  have hlen : (slice l s l.length).length = l.length - s :=
    slice_length_of_le hs (Nat.le_refl _)
  have hab : a.length + b.length = l.length - s := by
    rw [← List.length_append, h, hlen]
  have hsa : s + a.length ≤ l.length := by omega
  refine ⟨?_, ?_, hsa⟩
  · have ha : a = (a ++ b).take a.length := by rw [List.take_left]
    have e : s + a.length - s = a.length := by omega
    rw [slice, e]
    conv_lhs => rw [ha, h]
    rw [slice, List.take_take]
    have e2 : a.length ⊓ (l.length - s) = a.length := by omega
    rw [e2]
  · have hb : b = (a ++ b).drop a.length := by rw [List.drop_left]
    rw [hb, h, slice, slice, List.drop_take, List.drop_drop]
    have e1 : l.length - s - a.length = l.length - (s + a.length) := by omega
    rw [e1]

theorem slice_cons {l : List String} {s e : Nat} (h1 : s < e) (h2 : s < l.length) :
    slice l s e = l.getD s "" :: slice l (s + 1) e := by
  rw [slice, slice, List.drop_eq_getElem_cons h2, List.getD_eq_getElem l "" h2]
  have he : e - s = (e - (s + 1)) + 1 := by omega
  rw [he]
  rfl

theorem slice_eq_imp_getD {l1 l2 : List String} {s t n : Nat}
    (h : slice l1 s (s + n) = slice l2 t (t + n))
    (h1 : s + n ≤ l1.length) (h2 : t + n ≤ l2.length) :
    ∀ i < n, l1.getD (s + i) "" = l2.getD (t + i) "" := by
  intro i hi
  have e1 : l1.getD (s + i) "" = (slice l1 s (s + n)).getD i "" :=
    (slice_getD (by omega) h1 (by omega)).symm
  rw [e1, h, slice_getD (by omega) h2 (by omega)]

theorem zip_replicate_filter_map (p : InlineLineType → Bool) (t : InlineLineType) :
    ∀ (xs : List String) {n : Nat}, n = xs.length →
      (((xs.zip (List.replicate n t)).filter fun q => p q.2).map Prod.fst)
        = if p t = true then xs else []
  | [], n, hn => by
    subst hn
    simp
  | x :: xs, n, hn => by
    subst hn
    have ih := zip_replicate_filter_map p t xs rfl
    rw [List.length_cons, List.replicate_succ, List.zip_cons_cons, List.filter_cons]
    by_cases hp : p t = true
    · simp [hp, ih]
    · have hp' : p t = false := by revert hp; cases p t <;> simp
      simp [hp', ih]

theorem map_const_replicate {α : Type} (b : InlineLineType) :
    ∀ l : List α, (l.map fun _ => b) = List.replicate l.length b
  | [] => rfl
  | x :: xs => by
    rw [List.map_cons, List.length_cons, List.replicate_succ,
      map_const_replicate b xs]

theorem map_isEmpty {α β : Type} (f : α → β) (l : List α) :
    (l.map f).isEmpty = l.isEmpty := by
  cases l <;> rfl

theorem all_map_eq {α β : Type} (f : α → β) (p : β → Bool) :
    ∀ l : List α, (l.map f).all p = l.all fun x => p (f x)
  | [] => rfl
  | x :: xs => by
    rw [List.map_cons, List.all_cons, List.all_cons, all_map_eq f p xs]

theorem flush_spec (st : BuildState)
    (hlen : st.inlineLines.length = st.inlineTypes.length) :
    (flushPendingRemoved st).originalIndex = st.originalIndex ∧
    (flushPendingRemoved st).currentIndex = st.currentIndex ∧
    (flushPendingRemoved st).pendingRemoved = [] ∧
    (flushPendingRemoved st).inlineLines.length
      = (flushPendingRemoved st).inlineTypes.length ∧
    stOld (flushPendingRemoved st) = stOld st ∧
    stNew (flushPendingRemoved st) = stNew st := by
  refine ⟨rfl, rfl, rfl, ?_, ?_, ?_⟩
  · simp [flushPendingRemoved, hlen]
  · show (((st.inlineLines ++ st.pendingRemoved.map PendingRemovedLine.text).zip
        (st.inlineTypes ++ st.pendingRemoved.map fun _ => InlineLineType.deleted)).filter
          fun p => decide (p.2 ≠ InlineLineType.added)).map Prod.fst ++ List.map PendingRemovedLine.text []
      = stOld st
    rw [List.zip_append hlen, List.filter_append, List.map_append,
      map_const_replicate InlineLineType.deleted st.pendingRemoved]
    rw [zip_replicate_filter_map (fun t => decide (t ≠ InlineLineType.added))
      InlineLineType.deleted (st.pendingRemoved.map PendingRemovedLine.text) (by simp)]
    simp [stOld]
  · show (((st.inlineLines ++ st.pendingRemoved.map PendingRemovedLine.text).zip
        (st.inlineTypes ++ st.pendingRemoved.map fun _ => InlineLineType.deleted)).filter
          fun p => decide (p.2 ≠ InlineLineType.deleted)).map Prod.fst
      = stNew st
    rw [List.zip_append hlen, List.filter_append, List.map_append,
      map_const_replicate InlineLineType.deleted st.pendingRemoved]
    rw [zip_replicate_filter_map (fun t => decide (t ≠ InlineLineType.deleted))
      InlineLineType.deleted (st.pendingRemoved.map PendingRemovedLine.text) (by simp)]
    simp [stNew]

theorem processRemoved_spec (ol onorm : List String) (st : BuildState) (len : Nat)
    (hbound : st.originalIndex + len ≤ ol.length) :
    (processRemovedRun ol onorm st len).originalIndex = st.originalIndex + len ∧
    (processRemovedRun ol onorm st len).currentIndex = st.currentIndex ∧
    (processRemovedRun ol onorm st len).inlineLines = st.inlineLines ∧
    (processRemovedRun ol onorm st len).inlineTypes = st.inlineTypes ∧
    (processRemovedRun ol onorm st len).pendingRemoved.map PendingRemovedLine.text
      = st.pendingRemoved.map PendingRemovedLine.text
        ++ slice ol st.originalIndex (st.originalIndex + len) ∧
    stOld (processRemovedRun ol onorm st len)
      = stOld st ++ slice ol st.originalIndex (st.originalIndex + len) ∧
    stNew (processRemovedRun ol onorm st len) = stNew st := by
  have hpend : (processRemovedRun ol onorm st len).pendingRemoved.map PendingRemovedLine.text
      = st.pendingRemoved.map PendingRemovedLine.text
        ++ slice ol st.originalIndex (st.originalIndex + len) := by
    rw [slice_eq_map_range hbound]
    simp [processRemovedRun, List.map_map, Function.comp]
  refine ⟨rfl, rfl, rfl, rfl, hpend, ?_, rfl⟩
  show (((processRemovedRun ol onorm st len).inlineLines.zip
      (processRemovedRun ol onorm st len).inlineTypes).filter
        fun p => decide (p.2 ≠ InlineLineType.added)).map Prod.fst
      ++ (processRemovedRun ol onorm st len).pendingRemoved.map PendingRemovedLine.text
    = stOld st ++ slice ol st.originalIndex (st.originalIndex + len)
  rw [hpend]
  show (((st.inlineLines.zip st.inlineTypes).filter
      fun p => decide (p.2 ≠ InlineLineType.added)).map Prod.fst)
      ++ (st.pendingRemoved.map PendingRemovedLine.text
        ++ slice ol st.originalIndex (st.originalIndex + len))
    = stOld st ++ slice ol st.originalIndex (st.originalIndex + len)
  rw [stOld, List.append_assoc]

theorem processAdded_spec (nl cnorm : List String) (st : BuildState) (len : Nat)
    (hlen : st.inlineLines.length = st.inlineTypes.length) :
    (processAddedRun nl cnorm st len).originalIndex = st.originalIndex ∧
    (processAddedRun nl cnorm st len).currentIndex = st.currentIndex + len ∧
    (processAddedRun nl cnorm st len).pendingRemoved = [] ∧
    (processAddedRun nl cnorm st len).inlineLines.length
      = (processAddedRun nl cnorm st len).inlineTypes.length ∧
    stNew (processAddedRun nl cnorm st len)
      = stNew st ++ slice nl st.currentIndex (st.currentIndex + len) ∧
    ((!st.pendingRemoved.isEmpty
        && st.pendingRemoved.all (fun removed => isBlank removed.text)
        && st.pendingRemoved.length
          == (slice nl st.currentIndex (st.currentIndex + len)).length) = false →
      stOld (processAddedRun nl cnorm st len) = stOld st) := by
  set A := slice nl st.currentIndex (st.currentIndex + len) with hA
  set C := (!st.pendingRemoved.isEmpty
      && st.pendingRemoved.all (fun removed => isBlank removed.text)
      && st.pendingRemoved.length == A.length) with hC
  set D := (if C = true then st.pendingRemoved.filter fun removed => !isBlank removed.text
      else st.pendingRemoved) with hD
  have hil : (processAddedRun nl cnorm st len).inlineLines
      = st.inlineLines ++ D.map PendingRemovedLine.text ++ A := rfl
  have hit : (processAddedRun nl cnorm st len).inlineTypes
      = st.inlineTypes ++ D.map (fun _ => InlineLineType.deleted)
        ++ A.map fun _ => InlineLineType.added := rfl
  have hpend : (processAddedRun nl cnorm st len).pendingRemoved = [] := rfl
  refine ⟨rfl, rfl, hpend, ?_, ?_, ?_⟩
  · rw [hil, hit]
    simp [hlen]
  · rw [stNew, stNew, hil, hit]
    rw [List.zip_append (by simp [hlen]), List.filter_append, List.map_append,
      List.zip_append hlen, List.filter_append, List.map_append]
    rw [map_const_replicate InlineLineType.deleted D,
      map_const_replicate InlineLineType.added A]
    rw [zip_replicate_filter_map (fun t => decide (t ≠ InlineLineType.deleted))
      InlineLineType.deleted (D.map PendingRemovedLine.text) (by simp)]
    rw [zip_replicate_filter_map (fun t => decide (t ≠ InlineLineType.deleted))
      InlineLineType.added A rfl]
    simp
  · intro h
    have hDp : D = st.pendingRemoved := by
      rw [hD, if_neg]
      rw [h]
      simp
    rw [stOld, stOld, hil, hit, hpend, hDp]
    rw [List.zip_append (by simp [hlen]), List.filter_append, List.map_append,
      List.zip_append hlen, List.filter_append, List.map_append]
    rw [map_const_replicate InlineLineType.deleted st.pendingRemoved,
      map_const_replicate InlineLineType.added A]
    rw [zip_replicate_filter_map (fun t => decide (t ≠ InlineLineType.added))
      InlineLineType.deleted (st.pendingRemoved.map PendingRemovedLine.text) (by simp)]
    rw [zip_replicate_filter_map (fun t => decide (t ≠ InlineLineType.added))
      InlineLineType.added A rfl]
    simp

theorem equalWalk_proj (ol nl : List String) :
    ∀ (fuel k : Nat) (st : BuildState), k ≤ fuel →
      slice ol st.originalIndex (st.originalIndex + k)
        = slice nl st.currentIndex (st.currentIndex + k) →
      st.originalIndex + k ≤ ol.length → st.currentIndex + k ≤ nl.length →
      (equalWalk ol nl fuel k st).originalIndex = st.originalIndex + k ∧
      (equalWalk ol nl fuel k st).currentIndex = st.currentIndex + k ∧
      (equalWalk ol nl fuel k st).pendingRemoved = st.pendingRemoved ∧
      (equalWalk ol nl fuel k st).inlineLines
        = st.inlineLines ++ slice nl st.currentIndex (st.currentIndex + k) ∧
      (equalWalk ol nl fuel k st).inlineTypes
        = st.inlineTypes ++ List.replicate k InlineLineType.unchanged
  | 0, k, st => by
    intro hk hsl hb1 hb2
    have hk0 : k = 0 := by omega
    subst hk0
    rw [equalWalk]
    refine ⟨by omega, by omega, rfl, ?_, by simp⟩
    rw [slice_eq_nil (by omega)]
    simp
  | fuel + 1, 0, st => by
    intro hk hsl hb1 hb2
    rw [equalWalk]
    refine ⟨by omega, by omega, rfl, ?_, by simp⟩
    rw [slice_eq_nil (by omega)]
    simp
  | fuel + 1, k + 1, st => by
    intro hk hsl hb1 hb2
    have hhead : ol.getD st.originalIndex "" = nl.getD st.currentIndex "" := by
      have := slice_eq_imp_getD hsl hb1 hb2 0 (by omega)
      simpa using this
    rw [equalWalk, if_pos hhead]
    have hsl' : slice ol (st.originalIndex + 1) (st.originalIndex + 1 + k)
        = slice nl (st.currentIndex + 1) (st.currentIndex + 1 + k) := by
      apply slice_eq_slice_of_getD (by omega) (by omega)
      intro i hi
      have := slice_eq_imp_getD hsl hb1 hb2 (i + 1) (by omega)
      have e1 : st.originalIndex + (i + 1) = st.originalIndex + 1 + i := by omega
      have e2 : st.currentIndex + (i + 1) = st.currentIndex + 1 + i := by omega
      rwa [e1, e2] at this
    obtain ⟨i1, i2, i3, i4, i5⟩ := equalWalk_proj ol nl fuel k (unchangedStep nl st)
      (by omega)
      (by
        simp only [unchangedStep]
        exact hsl')
      (by simp only [unchangedStep]; omega)
      (by simp only [unchangedStep]; omega)
    refine ⟨?_, ?_, ?_, ?_, ?_⟩
    · rw [i1]
      simp only [unchangedStep]
      omega
    · rw [i2]
      simp only [unchangedStep]
      omega
    · rw [i3]
      simp [unchangedStep]
    · rw [i4]
      simp only [unchangedStep]
      rw [slice_cons (show st.currentIndex < st.currentIndex + (k + 1) by omega)
        (show st.currentIndex < nl.length by omega)]
      rw [show st.currentIndex + (k + 1) = st.currentIndex + 1 + k by omega]
      simp
    · rw [i5]
      simp only [unchangedStep]
      rw [show (k + 1) = k + 1 from rfl, List.replicate_succ]
      simp

theorem equalWalk_sides (ol nl : List String) (k : Nat) (st : BuildState)
    (hpend : st.pendingRemoved = [])
    (hlen : st.inlineLines.length = st.inlineTypes.length)
    (hsl : slice ol st.originalIndex (st.originalIndex + k)
      = slice nl st.currentIndex (st.currentIndex + k))
    (hb1 : st.originalIndex + k ≤ ol.length) (hb2 : st.currentIndex + k ≤ nl.length) :
    (equalWalk ol nl k k st).originalIndex = st.originalIndex + k ∧
    (equalWalk ol nl k k st).currentIndex = st.currentIndex + k ∧
    (equalWalk ol nl k k st).pendingRemoved = [] ∧
    (equalWalk ol nl k k st).inlineLines.length
      = (equalWalk ol nl k k st).inlineTypes.length ∧
    stOld (equalWalk ol nl k k st)
      = stOld st ++ slice ol st.originalIndex (st.originalIndex + k) ∧
    stNew (equalWalk ol nl k k st)
      = stNew st ++ slice nl st.currentIndex (st.currentIndex + k) := by
  obtain ⟨i1, i2, i3, i4, i5⟩ :=
    equalWalk_proj ol nl k k st (Nat.le_refl _) hsl hb1 hb2
  have hslen : (slice nl st.currentIndex (st.currentIndex + k)).length = k := by
    rw [slice_length_of_le (by omega) hb2]
    omega
  refine ⟨i1, i2, by rw [i3, hpend], ?_, ?_, ?_⟩
  · rw [i4, i5]
    simp [hlen, hslen]
  · rw [stOld, stOld, i3, i4, i5, hpend]
    rw [List.zip_append hlen, List.filter_append, List.map_append]
    rw [zip_replicate_filter_map (fun t => decide (t ≠ InlineLineType.added))
      InlineLineType.unchanged (slice nl st.currentIndex (st.currentIndex + k)) hslen.symm]
    rw [hsl]
    simp
  · rw [stNew, stNew, i4, i5]
    rw [List.zip_append hlen, List.filter_append, List.map_append]
    rw [zip_replicate_filter_map (fun t => decide (t ≠ InlineLineType.deleted))
      InlineLineType.unchanged (slice nl st.currentIndex (st.currentIndex + k)) hslen.symm]
    simp

theorem buildWalk_sides (ol nl onorm cnorm : List String) :
    ∀ (runs : List Run) (st : BuildState),
      (∀ r ∈ runs, wellformedRun r) →
      st.inlineLines.length = st.inlineTypes.length →
      st.originalIndex ≤ ol.length → st.currentIndex ≤ nl.length →
      sideLines (fun a _ => !a) runs = slice ol st.originalIndex ol.length →
      sideLines (fun a r => a || !r) runs = slice nl st.currentIndex nl.length →
      (runs.foldl (processRun ol nl onorm cnorm) st).inlineLines.length
        = (runs.foldl (processRun ol nl onorm cnorm) st).inlineTypes.length ∧
      stNew (runs.foldl (processRun ol nl onorm cnorm) st)
        = stNew st ++ slice nl st.currentIndex nl.length ∧
      (anyBlankSuppression ol runs st.originalIndex
          (st.pendingRemoved.map PendingRemovedLine.text) = false →
        stOld (runs.foldl (processRun ol nl onorm cnorm) st)
          = stOld st ++ slice ol st.originalIndex ol.length)
  | [], st => by
    intro _ hlen hbo hbc hold hnew
    simp only [List.foldl_nil]
    refine ⟨hlen, ?_, ?_⟩
    · rw [← hnew]
      simp [sideLines]
    · intro _
      rw [← hold]
      simp [sideLines]
  | r :: rest, st => by
    intro hwf hlen hbo hbc hold hnew
    rw [sideLines_cons] at hold hnew
    simp only [List.foldl_cons]
    have hwfr : wellformedRun r := hwf r (by simp)
    have hwfrest : ∀ x ∈ rest, wellformedRun x := fun x hx => hwf x (by simp [hx])
    by_cases hrem : r.removed = true
    · have hadd : r.added = false := by
        cases h : r.added
        · rfl
        · exact absurd ⟨h, hrem⟩ hwfr
      simp only [hadd, hrem] at hold hnew
      have hold' : r.value ++ sideLines (fun a _ => !a) rest
          = slice ol st.originalIndex ol.length := by simpa using hold
      have hnew' : sideLines (fun a r => a || !r) rest
          = slice nl st.currentIndex nl.length := by simpa using hnew
      obtain ⟨hv, hrest, hb⟩ := append_eq_slice_split hold' hbo
      have hpr : processRun ol nl onorm cnorm st r
          = processRemovedRun ol onorm st r.value.length := by
        simp [processRun, hrem]
      obtain ⟨p1, p2, p3, p4, p5, p6, p7⟩ :=
        processRemoved_spec ol onorm st r.value.length hb
      obtain ⟨q1, q2, q3⟩ := buildWalk_sides ol nl onorm cnorm rest
        (processRemovedRun ol onorm st r.value.length) hwfrest
        (by rw [p3, p4]; exact hlen)
        (by rw [p1]; exact hb) (by rw [p2]; exact hbc)
        (by rw [p1]; exact hrest) (by rw [p2]; exact hnew')
      rw [hpr]
      refine ⟨q1, ?_, ?_⟩
      · rw [q2, p7, p2]
      · intro hsup
        simp only [anyBlankSuppression, hrem, if_true] at hsup
        have hq := q3 (by rw [p1, p5]; exact hsup)
        rw [hq, p6, p1, List.append_assoc,
          slice_append (Nat.le_add_right _ _) hb]
    · have hremf : r.removed = false := by simpa using hrem
      by_cases hadd : r.added = true
      · simp only [hadd, hremf] at hold hnew
        have hold' : sideLines (fun a _ => !a) rest
            = slice ol st.originalIndex ol.length := by simpa using hold
        have hnew' : r.value ++ sideLines (fun a r => a || !r) rest
            = slice nl st.currentIndex nl.length := by simpa using hnew
        obtain ⟨hv, hrest, hb⟩ := append_eq_slice_split hnew' hbc
        have hpr : processRun ol nl onorm cnorm st r
            = processAddedRun nl cnorm st r.value.length := by
          simp [processRun, hremf, hadd]
        obtain ⟨a1, a2, a3, a4, a5, a6⟩ :=
          processAdded_spec nl cnorm st r.value.length hlen
        obtain ⟨q1, q2, q3⟩ := buildWalk_sides ol nl onorm cnorm rest
          (processAddedRun nl cnorm st r.value.length) hwfrest a4
          (by rw [a1]; exact hbo) (by rw [a2]; exact hb)
          (by rw [a1]; exact hold') (by rw [a2]; exact hrest)
        rw [hpr]
        refine ⟨q1, ?_, ?_⟩
        · rw [q2, a5, a2, List.append_assoc,
            slice_append (Nat.le_add_right _ _) hb]
        · intro hsup
          simp only [anyBlankSuppression, hremf, hadd, Bool.false_eq_true, if_false,
            if_true, Bool.or_eq_false_iff] at hsup
          have hslice : (slice nl st.currentIndex
              (st.currentIndex + r.value.length)).length = r.value.length := by
            rw [slice_length_of_le (by omega) hb]
            omega
          have hcond : (!st.pendingRemoved.isEmpty
              && st.pendingRemoved.all (fun removed => isBlank removed.text)
              && st.pendingRemoved.length
                == (slice nl st.currentIndex
                  (st.currentIndex + r.value.length)).length) = false := by
            have e := hsup.1
            rw [map_isEmpty, all_map_eq, List.length_map, ← hslice] at e
            exact e
          have hq := q3 (by rw [a1, a3]; simpa using hsup.2)
          rw [hq, a6 hcond, a1]
      · have haddf : r.added = false := by simpa using hadd
        simp only [haddf, hremf] at hold hnew
        have hold' : r.value ++ sideLines (fun a _ => !a) rest
            = slice ol st.originalIndex ol.length := by simpa using hold
        have hnew' : r.value ++ sideLines (fun a r => a || !r) rest
            = slice nl st.currentIndex nl.length := by simpa using hnew
        obtain ⟨hvO, hrestO, hbO⟩ := append_eq_slice_split hold' hbo
        obtain ⟨hvN, hrestN, hbN⟩ := append_eq_slice_split hnew' hbc
        have hpr : processRun ol nl onorm cnorm st r
            = equalWalk ol nl r.value.length r.value.length
              (flushPendingRemoved st) := by
          simp [processRun, hremf, haddf]
        obtain ⟨f1, f2, f3, f4, f5, f6⟩ := flush_spec st hlen
        obtain ⟨w1, w2, w3, w4, w5, w6⟩ :=
          equalWalk_sides ol nl r.value.length (flushPendingRemoved st) f3 f4
            (by rw [f1, f2]; exact hvO.symm.trans hvN)
            (by rw [f1]; exact hbO) (by rw [f2]; exact hbN)
        obtain ⟨q1, q2, q3⟩ := buildWalk_sides ol nl onorm cnorm rest
          (equalWalk ol nl r.value.length r.value.length
            (flushPendingRemoved st)) hwfrest w4
          (by rw [w1, f1]; exact hbO) (by rw [w2, f2]; exact hbN)
          (by rw [w1, f1]; exact hrestO) (by rw [w2, f2]; exact hrestN)
        rw [hpr]
        refine ⟨q1, ?_, ?_⟩
        · rw [q2, w6, w2, f2, f6, List.append_assoc,
            slice_append (Nat.le_add_right _ _) hbN]
        · intro hsup
          simp only [anyBlankSuppression, hremf, haddf, Bool.false_eq_true,
            if_false] at hsup
          have hq := q3 (by rw [w1, f1, w3]; simpa using hsup)
          rw [hq, w5, w1, f1, f5, List.append_assoc,
            slice_append (Nat.le_add_right _ _) hbO]

theorem patienceDiff_wellformed (oldLines newLines : List String) :
    ∀ r ∈ patienceDiff oldLines newLines, wellformedRun r :=
  fun r hr => patienceDiffRec_wellformed _ oldLines 0 oldLines.length
    newLines 0 newLines.length r hr

/-- C2 counterexample: for `originalLines = [""]` and `currentLines = ["x"]`
the builder suppresses the blank deleted line, so the non-`added` inline
lines do not reproduce the original text. -/
theorem inline_view_round_trip_counterexample :
    inlineOldLines (buildDiffViewFromLines [""] ["x"]).inlineView ≠ [""] := by
  decide

/-- C2 (corrected): the non-`deleted` inline lines always reproduce the
current text; the non-`added` inline lines reproduce the original text
whenever no blank-delete suppression fires while walking the aligner's runs
(the unconditional old-side statement fails, see the counterexample). -/
theorem inline_view_round_trip (originalLines currentLines : List String) :
    inlineNewLines (buildDiffViewFromLines originalLines currentLines).inlineView
      = currentLines ∧
    (anyBlankSuppression originalLines
        (patienceDiff originalLines currentLines) 0 [] = false →
      inlineOldLines (buildDiffViewFromLines originalLines currentLines).inlineView
        = originalLines) := by
  have hsides := patienceDiffRec_sides (originalLines.length + currentLines.length)
    originalLines 0 originalLines.length currentLines 0 currentLines.length
    (by omega) (Nat.le_refl _) (Nat.le_refl _)
  obtain ⟨q1, q2, q3⟩ := buildWalk_sides originalLines currentLines
    (originalLines.map normalizeLineForMatch) (currentLines.map normalizeLineForMatch)
    (patienceDiff originalLines currentLines)
    { originalIndex := 0, currentIndex := 0
      originalLineNumber := 1, currentLineNumber := 1
      pendingRemoved := [], lastMatchedCurrentLine := 0
      lineChanges := [], inlineLines := [], inlineTypes := [] }
    (patienceDiff_wellformed originalLines currentLines)
    rfl (Nat.zero_le _) (Nat.zero_le _) hsides.1 hsides.2
  obtain ⟨f1, f2, f3, f4, f5, f6⟩ := flush_spec _ q1
  refine ⟨?_, fun hsup => ?_⟩
  · show stNew (flushPendingRemoved (List.foldl
        (processRun originalLines currentLines
          (originalLines.map normalizeLineForMatch)
          (currentLines.map normalizeLineForMatch))
        { originalIndex := 0, currentIndex := 0
          originalLineNumber := 1, currentLineNumber := 1
          pendingRemoved := [], lastMatchedCurrentLine := 0
          lineChanges := [], inlineLines := [], inlineTypes := [] }
        (patienceDiff originalLines currentLines))) = currentLines
    rw [f6, q2]
    simp [stNew, slice_full]
  · have hq := q3 hsup
    have h0 : stOld (flushPendingRemoved (List.foldl
        (processRun originalLines currentLines
          (originalLines.map normalizeLineForMatch)
          (currentLines.map normalizeLineForMatch))
        { originalIndex := 0, currentIndex := 0
          originalLineNumber := 1, currentLineNumber := 1
          pendingRemoved := [], lastMatchedCurrentLine := 0
          lineChanges := [], inlineLines := [], inlineTypes := [] }
        (patienceDiff originalLines currentLines)))
        = inlineOldLines
            (buildDiffViewFromLines originalLines currentLines).inlineView ++ [] :=
      rfl
    have hfin : inlineOldLines
        (buildDiffViewFromLines originalLines currentLines).inlineView ++ []
        = originalLines := by
      rw [← h0, f5, hq]
      simp [stOld, slice_full]
    simpa using hfin

/-- Witness for C2 at original = ["a"], current = ["a", "b"]: no blank-delete
suppression fires, and both sides of the inline view round-trip. -/
theorem inline_view_round_trip_witness :
    inlineNewLines (buildDiffViewFromLines ["a"] ["a", "b"]).inlineView
      = ["a", "b"] ∧
    anyBlankSuppression ["a"] (patienceDiff ["a"] ["a", "b"]) 0 [] = false ∧
    inlineOldLines (buildDiffViewFromLines ["a"] ["a", "b"]).inlineView = ["a"] := by
  have h : anyBlankSuppression ["a"] (patienceDiff ["a"] ["a", "b"]) 0 [] = false := by
    decide
  exact ⟨(inline_view_round_trip ["a"] ["a", "b"]).1, h,
    (inline_view_round_trip ["a"] ["a", "b"]).2 h⟩

/-- C5: with equal removed/added counts, the pairing heuristic pairs index i
with index i for every i, unconditionally, leaving nothing unpaired; and on
scenario B (old = ["a","b","c"], new = ["a","x","c"]) the builder emits
exactly one `modified` record pairing "b" with "x". -/
theorem equal_count_positional_pairing (deletedLines : List PendingRemovedLine)
    (addedLines addedNormalized : List String)
    (h : deletedLines.length = addedLines.length) :
    pairLinesBySimilarity deletedLines addedLines addedNormalized
      = { pairedByAdded := (List.range addedLines.length).map fun i => (i, i)
          unpairedDeleted := []
          unpairedAdded := [] } ∧
    ((buildDiffViewFromLines ["a", "b", "c"] ["a", "x", "c"]).lineChanges.filter
        fun c => decide (c.type = LineChangeType.modified))
      = [{ lineNumber := 2, type := LineChangeType.modified,
           originalLineNumber := some 2, oldText := some "b",
           newText := some "x" }] := by
  refine ⟨?_, by decide⟩
  rw [pairLinesBySimilarity, if_pos h]
  show ({ pairedByAdded := (List.range
            (min deletedLines.length addedLines.length)).map fun i => (i, i)
          unpairedDeleted := (List.range deletedLines.length).filter fun j =>
            decide (j ∉ List.range (min deletedLines.length addedLines.length))
          unpairedAdded := (List.range addedLines.length).filter fun i =>
            decide (i ∉ List.range (min deletedLines.length addedLines.length)) }
        : PairingResult) = _
  rw [h, Nat.min_self]
  have hfil : (List.range addedLines.length).filter
      (fun j => decide (j ∉ List.range addedLines.length)) = [] := by
    apply List.filter_eq_nil_iff.mpr
    intro j hj
    simp only [decide_eq_true_eq]
    intro hc
    exact hc hj
  rw [hfil]

/-- Witness for C5 at deleted = [one line "b"], added = ["x"]. -/
theorem equal_count_positional_pairing_witness :
    ([{ text := "b", normalized := "b", originalLineNumber := 2 }]
        : List PendingRemovedLine).length = (["x"] : List String).length ∧
    pairLinesBySimilarity
        [{ text := "b", normalized := "b", originalLineNumber := 2 }] ["x"] ["x"]
      = { pairedByAdded := [(0, 0)], unpairedDeleted := [], unpairedAdded := [] } := by
  have h := (equal_count_positional_pairing
    [{ text := "b", normalized := "b", originalLineNumber := 2 }] ["x"] ["x"] rfl).1
  exact ⟨rfl, by rw [h]; decide⟩

/-! ### The similarity score -/

theorem toFinset_dedup_eq (l : List Char) : l.dedup.toFinset = l.toFinset := by
  ext x
  simp [List.mem_toFinset, List.mem_dedup]

theorem inter_card_eq (l1 l2 : List Char) :
    (l1.dedup.filter fun x => decide (x ∈ l2.dedup)).length
      = (l1.toFinset ∩ l2.toFinset).card := by
  have hnd : (l1.dedup.filter fun x => decide (x ∈ l2.dedup)).Nodup :=
    (List.nodup_dedup l1).filter _
  rw [← List.toFinset_card_of_nodup hnd, List.toFinset_filter, toFinset_dedup_eq]
  congr 1
  rw [show (l1.toFinset.filter fun a => decide (a ∈ l2.dedup) = true)
      = l1.toFinset.filter (· ∈ l2.toFinset) from
    Finset.filter_congr (by intro x _; simp [List.mem_dedup])]
  rw [Finset.filter_mem_eq_inter]

theorem union_card_eq (l1 l2 : List Char) :
    (l1.dedup ++ l2.dedup).dedup.length = (l1.toFinset ∪ l2.toFinset).card := by
  rw [← List.toFinset_card_of_nodup (List.nodup_dedup _), toFinset_dedup_eq,
    List.toFinset_append, toFinset_dedup_eq, toFinset_dedup_eq]

theorem strip_empty_iff (u : String) :
    (stripAllWhitespace u).data.toFinset = ∅ ↔ stripAllWhitespace u = "" := by
  rw [List.toFinset_eq_empty_iff, String.ext_iff]

theorem setSimilarity_eq_jaccard (s t : String) :
    calculateSetSimilarity s t = jaccardSpec s t := by
  simp only [calculateSetSimilarity, jaccardSpec]
  by_cases h : stripAllWhitespace s = "" ∧ stripAllWhitespace t = ""
  · rw [if_pos h, if_pos ⟨(strip_empty_iff s).mpr h.1, (strip_empty_iff t).mpr h.2⟩]
  · have h' : ¬((stripAllWhitespace s).data.toFinset = ∅ ∧
        (stripAllWhitespace t).data.toFinset = ∅) := by
      intro hc
      exact h ⟨(strip_empty_iff s).mp hc.1, (strip_empty_iff t).mp hc.2⟩
    rw [if_neg h, if_neg h', inter_card_eq, union_card_eq]
    have hpos : 0 < ((stripAllWhitespace s).data.toFinset
        ∪ (stripAllWhitespace t).data.toFinset).card := by
      apply Finset.card_pos.mpr
      apply Finset.nonempty_iff_ne_empty.mpr
      intro hc
      exact h' (Finset.union_eq_empty.mp hc)
    rw [if_pos hpos]

/-- C6: the similarity score is 1 when the two normalized forms are equal and
non-empty, and otherwise the maximum of the character-set Jaccard similarity
of the whitespace-stripped raw texts and of the normalized texts; the
code's set similarity is exactly the character-set Jaccard similarity
(both character sets empty gives 1, exactly one empty gives 0). -/
theorem pair_similarity_formula (deleted : PendingRemovedLine)
    (addedLine addedNormalized : String) :
    calculatePairSimilarity deleted addedLine addedNormalized
      = (if deleted.normalized = addedNormalized ∧ deleted.normalized ≠ "" then 1
         else max (jaccardSpec deleted.text addedLine)
           (jaccardSpec deleted.normalized addedNormalized)) ∧
    (∀ s t : String, stripAllWhitespace s = "" → stripAllWhitespace t = "" →
      calculateSetSimilarity s t = 1) ∧
    (∀ s t : String, stripAllWhitespace s = "" → stripAllWhitespace t ≠ "" →
      calculateSetSimilarity s t = 0) := by
  refine ⟨?_, ?_, ?_⟩
  · by_cases hc : 0 < deleted.normalized.data.length
        ∧ deleted.normalized = addedNormalized
    · have hne : deleted.normalized ≠ "" := by
        intro he
        rw [he] at hc
        exact absurd hc.1 (by simp)
      rw [calculatePairSimilarity, if_pos hc, if_pos ⟨hc.2, hne⟩]
    · have hng : ¬(deleted.normalized = addedNormalized
          ∧ deleted.normalized ≠ "") := by
        intro hd
        apply hc
        refine ⟨?_, hd.1⟩
        rcases Nat.eq_zero_or_pos deleted.normalized.data.length with hz | hp
        · exact absurd (String.ext_iff.mpr (List.length_eq_zero.mp hz)) hd.2
        · exact hp
      rw [calculatePairSimilarity, if_neg hc, if_neg hng,
        setSimilarity_eq_jaccard, setSimilarity_eq_jaccard]
  · intro s t hs ht
    rw [calculateSetSimilarity]
    rw [if_pos ⟨hs, ht⟩]
  · intro s t hs ht
    simp only [calculateSetSimilarity]
    rw [if_neg (by intro hc; exact ht hc.2)]
    have hdata : (stripAllWhitespace s).data = [] := String.ext_iff.mp hs
    rw [hdata]
    simp [List.dedup_nil]

/-- Witness for C6 at a comment pair whose normalized forms agree, plus the
two degenerate set-similarity inputs. -/
theorem pair_similarity_formula_witness :
    calculatePairSimilarity
        { text := "// x", normalized := "x", originalLineNumber := 1 } "x" "x" = 1 ∧
    stripAllWhitespace " " = "" ∧ stripAllWhitespace "y" ≠ "" ∧
    calculateSetSimilarity " " "  " = 1 ∧
    calculateSetSimilarity " " "y" = 0 := by
  have h := pair_similarity_formula
    { text := "// x", normalized := "x", originalLineNumber := 1 } "x" "x"
  refine ⟨?_, by decide, by decide,
    h.2.1 " " "  " (by decide) (by decide),
    h.2.2 " " "y" (by decide) (by decide)⟩
  rw [h.1, if_pos ⟨rfl, by decide⟩]

/-- C7: scenario D — for old = ["1","2","3","4"] and new = ["1","4"] the
aligner anchors on "1" and "4" (anchor pairs (0,0) and (3,1)), the region
between the anchors becomes one pure deleted run ["2","3"], and the
classifier emits exactly two `deleted` records, both anchored at current
line 1. -/
theorem scenario_middle_deletion :
    patienceDiff ["1", "2", "3", "4"] ["1", "4"]
      = [{ value := ["1"] }, { value := ["2", "3"], removed := true },
         { value := ["4"] }] ∧
    findAnchors (findUniqueLineIndices ["1", "2", "3", "4"] 0 4)
        (findUniqueLineIndices ["1", "4"] 0 2) = [(0, 0), (3, 1)] ∧
    ((buildDiffViewFromLines ["1", "2", "3", "4"] ["1", "4"]).lineChanges.filter
        fun c => decide (c.type = LineChangeType.deleted))
      = [{ lineNumber := 2, type := LineChangeType.deleted,
           originalLineNumber := some 2, oldText := some "2",
           anchorLineNumber := some 1 },
         { lineNumber := 2, type := LineChangeType.deleted,
           originalLineNumber := some 3, oldText := some "3",
           anchorLineNumber := some 1 }] := by
  decide

/-- C9: queries for a path with no stored baseline (and not touched by any
session) return `none` rather than failing. -/
theorem missing_baseline_queries_absent (st : TrackerState) (filePath : String)
    (h1 : List.lookup filePath st.fileSnapshots = none)
    (h2 : List.lookup filePath st.lineChangesMap = none)
    (h3 : List.lookup filePath st.inlineViewsMap = none) :
    getLineChanges st filePath = none ∧
    getOriginalContent st filePath = none ∧
    (getInlineView st filePath).1 = none := by
  refine ⟨h2, h1, ?_⟩
  rw [getInlineView, ensureInlineView, h3]
  rw [buildDiffView, getOriginalContent, h1]

/-- Witness for C9 at the empty tracker state. -/
theorem missing_baseline_queries_absent_witness :
    getLineChanges
        { fileSnapshots := [], lineChangesMap := [], inlineViewsMap := []
          trackedChanges := [], openDocuments := [] } "a.txt" = none ∧
    getOriginalContent
        { fileSnapshots := [], lineChangesMap := [], inlineViewsMap := []
          trackedChanges := [], openDocuments := [] } "a.txt" = none ∧
    (getInlineView
        { fileSnapshots := [], lineChangesMap := [], inlineViewsMap := []
          trackedChanges := [], openDocuments := [] } "a.txt").1 = none :=
  missing_baseline_queries_absent _ "a.txt" rfl rfl rfl

/-! ### Change blocks -/

theorem mem_insertByLineNumber {x a : LineChange} :
    ∀ {l : List LineChange}, a ∈ insertByLineNumber x l ↔ a = x ∨ a ∈ l
  | [] => by simp [insertByLineNumber]
  | y :: ys => by
    rw [insertByLineNumber]
    split
    · simp
    · rw [List.mem_cons, mem_insertByLineNumber, List.mem_cons]
      tauto

theorem pairwise_insertByLineNumber {x : LineChange} :
    ∀ {l : List LineChange},
      l.Pairwise (fun a b => a.lineNumber ≤ b.lineNumber) →
      (insertByLineNumber x l).Pairwise (fun a b => a.lineNumber ≤ b.lineNumber)
  | [], _ => by simp [insertByLineNumber]
  | y :: ys, h => by
    rw [insertByLineNumber]
    split
    · next hle =>
      refine List.Pairwise.cons ?_ h
      intro b hb
      rcases List.mem_cons.mp hb with rfl | hb'
      · exact hle
      · exact le_trans hle (List.rel_of_pairwise_cons h hb')
    · next hgt =>
      have hyx : y.lineNumber ≤ x.lineNumber := by omega
      refine List.Pairwise.cons ?_ (pairwise_insertByLineNumber h.of_cons)
      intro b hb
      rcases mem_insertByLineNumber.mp hb with rfl | hb'
      · exact hyx
      · exact List.rel_of_pairwise_cons h hb'

theorem pairwise_sortByLineNumber (l : List LineChange) :
    (sortByLineNumber l).Pairwise fun a b => a.lineNumber ≤ b.lineNumber := by
  rw [sortByLineNumber]
  induction l with
  | nil => simp
  | cons x xs ih =>
    rw [List.foldr_cons]
    exact pairwise_insertByLineNumber ih

theorem foldl_min_le_init :
    ∀ (cs : List LineChange) (a : Nat),
      cs.foldl (fun m x => min m x.lineNumber) a ≤ a
  | [], a => Nat.le_refl a
  | d :: ds, a => by
    rw [List.foldl_cons]
    exact le_trans (foldl_min_le_init ds _) (Nat.min_le_left _ _)

theorem foldl_max_getLast :
    ∀ (cs : List LineChange) (c : LineChange),
      (c :: cs).Pairwise (fun a b => a.lineNumber ≤ b.lineNumber) →
      cs.foldl (fun m x => max m x.lineNumber) c.lineNumber
        = ((c :: cs).getLast (by simp)).lineNumber
  | [], _, _ => rfl
  | d :: ds, c, h => by
    rw [List.foldl_cons]
    have hcd : c.lineNumber ≤ d.lineNumber :=
      List.rel_of_pairwise_cons h (by simp)
    rw [Nat.max_eq_right hcd, List.getLast_cons_cons c d ds]
    exact foldl_max_getLast ds d h.of_cons

theorem createBlock_start_concat (c change : LineChange) (cs : List LineChange)
    (h : c.lineNumber ≤ change.lineNumber) :
    (createBlock (c :: (cs ++ [change])) 0).startLine
      = (createBlock (c :: cs) 0).startLine := by
  show (cs ++ [change]).foldl (fun m x => min m x.lineNumber) c.lineNumber
      = cs.foldl (fun m x => min m x.lineNumber) c.lineNumber
  rw [List.foldl_append]
  exact Nat.min_eq_left (le_trans (foldl_min_le_init cs c.lineNumber) h)

theorem blocksLoop_chain :
    ∀ (rest : List LineChange) (blocks : List ChangeBlock)
      (c : LineChange) (cs : List LineChange) (prev : LineChange),
      (c :: cs).getLast (by simp) = prev →
      (∀ x ∈ c :: cs, x.type = c.type) →
      (c :: cs).Pairwise (fun a b => a.lineNumber ≤ b.lineNumber) →
      (∀ x ∈ c :: cs, ∀ r ∈ rest, x.lineNumber ≤ r.lineNumber) →
      rest.Pairwise (fun a b => a.lineNumber ≤ b.lineNumber) →
      List.Chain' blockRel blocks →
      (∀ bl ∈ blocks.getLast?,
        bl.endLine ≤ (createBlock (c :: cs) 0).startLine ∧
          (bl.type ≠ c.type ∨ bl.endLine + 1 < (createBlock (c :: cs) 0).startLine)) →
      List.Chain' blockRel (blocksLoop blocks (c :: cs) c.type prev rest)
  | [], blocks, c, cs, prev => by
    intro hlast htype hsortc hcr hsortr hblocks hlink
    rw [blocksLoop]
    apply List.chain'_append.mpr
    refine ⟨hblocks, by simp, ?_⟩
    intro x hx y hy
    simp only [List.head?_cons, Option.mem_def, Option.some.injEq] at hy
    subst hy
    exact hlink x hx
  | change :: rest, blocks, c, cs, prev => by
    intro hlast htype hsortc hcr hsortr hblocks hlink
    rw [blocksLoop]
    by_cases hcond : change.lineNumber ≤ prev.lineNumber + 1 ∧ change.type = c.type
    · rw [if_pos hcond]
      have hle : c.lineNumber ≤ change.lineNumber := hcr c (by simp) change (by simp)
      rw [List.cons_append]
      have hstart := createBlock_start_concat c change cs hle
      refine blocksLoop_chain rest blocks c (cs ++ [change]) change ?_ ?_ ?_ ?_ ?_
        hblocks ?_
      · show ((c :: cs) ++ [change]).getLast (by simp) = change
        exact List.getLast_concat _
      · intro x hx
        rcases List.mem_cons.mp hx with rfl | hx'
        · rfl
        · rcases List.mem_append.mp hx' with hx2 | hx2
          · exact htype x (by simp [hx2])
          · simp only [List.mem_singleton] at hx2
            subst hx2
            exact hcond.2
      · show ((c :: cs) ++ [change]).Pairwise fun a b => a.lineNumber ≤ b.lineNumber
        apply List.pairwise_append.mpr
        refine ⟨hsortc, by simp, ?_⟩
        intro a ha b hb
        simp only [List.mem_singleton] at hb
        subst hb
        exact hcr a ha b (by simp)
      · intro x hx r hr
        rcases List.mem_cons.mp hx with rfl | hx'
        · exact hcr x (by simp) r (by simp [hr])
        · rcases List.mem_append.mp hx' with hx2 | hx2
          · exact hcr x (by simp [hx2]) r (by simp [hr])
          · simp only [List.mem_singleton] at hx2
            subst hx2
            exact List.rel_of_pairwise_cons hsortr hr
      · exact hsortr.of_cons
      · intro bl hbl
        rw [show (createBlock (c :: (cs ++ [change])) 0).startLine
            = (createBlock (c :: cs) 0).startLine from hstart]
        exact hlink bl hbl
    · rw [if_neg hcond]
      have hprevmem : prev ∈ c :: cs := hlast ▸ List.getLast_mem (by simp)
      have hprevchange : prev.lineNumber ≤ change.lineNumber :=
        hcr prev hprevmem change (by simp)
      have hend : (createBlock (c :: cs) blocks.length).endLine = prev.lineNumber := by
        show cs.foldl (fun m x => max m x.lineNumber) c.lineNumber = prev.lineNumber
        rw [foldl_max_getLast cs c hsortc, hlast]
      have hcbtype : (createBlock (c :: cs) blocks.length).type = c.type := rfl
      have hnewlink : blockRel (createBlock (c :: cs) blocks.length)
          (createBlock [change] 0) := by
        have hstart1 : (createBlock [change] 0).startLine = change.lineNumber := rfl
        refine ⟨?_, ?_⟩
        · rw [hend, hstart1]
          exact hprevchange
        · by_cases hty : change.type = c.type
          · right
            rw [hend, hstart1]
            have : ¬ change.lineNumber ≤ prev.lineNumber + 1 := fun hln =>
              hcond ⟨hln, hty⟩
            omega
          · left
            rw [hcbtype]
            exact fun he => hty he.symm
      have hchain2 : List.Chain' blockRel
          (blocks ++ [createBlock (c :: cs) blocks.length]) := by
        apply List.chain'_append.mpr
        refine ⟨hblocks, by simp, ?_⟩
        intro x hx y hy
        simp only [List.head?_cons, Option.mem_def, Option.some.injEq] at hy
        subst hy
        exact hlink x hx
      refine blocksLoop_chain rest (blocks ++ [createBlock (c :: cs) blocks.length])
        change [] change rfl (by simp) (by simp) ?_ hsortr.of_cons hchain2 ?_
      · intro x hx r hr
        simp only [List.mem_singleton] at hx
        subst hx
        exact List.rel_of_pairwise_cons hsortr hr
      · intro bl hbl
        rw [List.getLast?_concat] at hbl
        simp only [Option.mem_def, Option.some.injEq] at hbl
        subst hbl
        exact ⟨hnewlink.1, hnewlink.2⟩

/-- C8 counterexample: two records on the same current line with different
kinds produce two blocks whose `[startLine, endLine]` ranges overlap. -/
theorem change_blocks_overlap_counterexample :
    (getChangeBlocks [{ lineNumber := 5, type := LineChangeType.deleted },
        { lineNumber := 5, type := LineChangeType.added }]).length = 2 ∧
    rangesOverlap
      ((getChangeBlocks [{ lineNumber := 5, type := LineChangeType.deleted },
          { lineNumber := 5, type := LineChangeType.added }]).getD 0 default)
      ((getChangeBlocks [{ lineNumber := 5, type := LineChangeType.deleted },
          { lineNumber := 5, type := LineChangeType.added }]).getD 1 default) := by
  constructor
  · decide
  · constructor
    · decide
    · decide

/-- C8 (corrected): consecutive blocks of `getChangeBlocks` are ordered —
each block ends no later than the next starts — and a boundary occurs only
at a kind change or a line-number gap greater than one; but two blocks may
still overlap on one line (a block may end exactly where the next starts,
see the counterexample), so the original no-overlap statement fails. -/
theorem change_blocks_partition (lineChanges : List LineChange) :
    List.Chain' blockRel (getChangeBlocks lineChanges) := by
  have hsort := pairwise_sortByLineNumber
    (lineChanges.filter fun c => decide (c.type ≠ LineChangeType.unchanged))
  rw [getChangeBlocks]
  rcases hc : sortByLineNumber
      (lineChanges.filter fun c => decide (c.type ≠ LineChangeType.unchanged))
    with _ | ⟨c, rest⟩
  · simp
  · rw [hc] at hsort
    simp only
    refine blocksLoop_chain rest [] c [] c rfl (by simp) (by simp) ?_
      hsort.of_cons List.chain'_nil (by simp)
    intro x hx r hr
    simp only [List.mem_singleton] at hx
    subst hx
    exact List.rel_of_pairwise_cons hsort hr

end DiffTracker
